import Mathlib

/-!
Verification of the AlgoStack caching engine
(`src/modules/cache/cache.ts`) against its design document.

The cache stores JavaScript objects in named stores of a persistent
key-value engine (Dexie / IndexedDB).  We shallowly embed:

* JavaScript values (`Value`): null, undefined, booleans, integers,
  strings, arrays, plain objects (field lists in insertion order);
* the fingerprint hasher `objHash` (the external `object-hash` npm
  package, modelled by canonical key-sorted serialization — deterministic
  and order-insensitive for object keys at every depth, order-sensitive
  for arrays, which is the documented contract the spec relies on);
* the key normalization `hashObjectProps`, the expiration policy
  (`isExpired`, `getExpiration`, the duration-string grammar of §4.2),
  and the public operations `find`, `save`, `prune`, plus the error
  path (`handleError`, `clearAll`).

The underlying Dexie table store is modelled as a list of entries per
store; `put` is an upsert on the store's primary key, `where` is
field-equality filtering, `orderBy` a stable sort on the named field.
Underlying storage failures are injected through an explicit `fault`
parameter: `none` means the awaited engine call succeeds, `some e`
means it rejects with the error `e`.
-/

mutual

/-- A JavaScript value, as far as the cache manipulates them. -/
inductive Value where
  | vNull : Value
  | vUndef : Value
  | vBool : Bool → Value
  | vInt : Int → Value
  | vStr : String → Value
  | vArr : ValueList → Value
  | vObj : FieldList → Value
  deriving DecidableEq

/-- Elements of a JavaScript array. -/
inductive ValueList where
  | nil : ValueList
  | cons : Value → ValueList → ValueList
  deriving DecidableEq

/-- Fields of a JavaScript object, in insertion order.  JavaScript
objects never repeat a key; well-formedness (`Value.wfB`) captures
that. -/
inductive FieldList where
  | nil : FieldList
  | cons : String → Value → FieldList → FieldList
  deriving DecidableEq

end

/-- Structural induction for embedded arrays (the `induction` tactic
does not directly support mutually inductive types). -/
theorem ValueList.indVL (motive : ValueList → Prop)
    (hnil : motive .nil)
    (hcons : ∀ v tl, motive tl → motive (.cons v tl)) :
    ∀ xs, motive xs
  | .nil => hnil
  | .cons v tl => hcons v tl (ValueList.indVL motive hnil hcons tl)

/-- Structural induction for field lists. -/
theorem FieldList.indFL (motive : FieldList → Prop)
    (hnil : motive .nil)
    (hcons : ∀ k v tl, motive tl → motive (.cons k v tl)) :
    ∀ fs, motive fs
  | .nil => hnil
  | .cons k v tl => hcons k v tl (FieldList.indFL motive hnil hcons tl)

/-- The elements of an embedded array, as a Lean list. -/
def ValueList.toList : ValueList → List Value
  | .nil => []
  | .cons v tl => v :: tl.toList

/-- The fields of an embedded object, as a Lean association list. -/
def FieldList.toList : FieldList → List (String × Value)
  | .nil => []
  | .cons k v tl => (k, v) :: tl.toList

/-- Build an embedded array from a Lean list. -/
def ValueList.ofList : List Value → ValueList
  | [] => .nil
  | v :: tl => .cons v (ofList tl)

/-- Build an embedded object from a Lean association list. -/
def FieldList.ofList : List (String × Value) → FieldList
  | [] => .nil
  | (k, v) :: tl => .cons k v (ofList tl)

theorem ValueList.toListOfListVL (l : List Value) :
    (ValueList.ofList l).toList = l := by
  induction l with
  | nil => rfl
  | cons v tl ih => simp [ValueList.ofList, ValueList.toList, ih]

theorem FieldList.toListOfListFL (l : List (String × Value)) :
    (FieldList.ofList l).toList = l := by
  induction l with
  | nil => rfl
  | cons kv tl ih =>
    rcases kv with ⟨k, v⟩
    simp [FieldList.ofList, FieldList.toList, ih]

theorem ValueList.toListInjectiveVL :
    ∀ {xs ys : ValueList}, xs.toList = ys.toList → xs = ys
  | .nil, .nil, _ => rfl
  | .nil, .cons _ _, h => by simp [ValueList.toList] at h
  | .cons _ _, .nil, h => by simp [ValueList.toList] at h
  | .cons v tl, .cons w tl', h => by
    simp only [ValueList.toList, List.cons.injEq] at h
    rw [h.1, ValueList.toListInjectiveVL h.2]

theorem FieldList.toListInjectiveFL :
    ∀ {fs gs : FieldList}, fs.toList = gs.toList → fs = gs
  | .nil, .nil, _ => rfl
  | .nil, .cons _ _ _, h => by simp [FieldList.toList] at h
  | .cons _ _ _, .nil, h => by simp [FieldList.toList] at h
  | .cons k v tl, .cons k' v' tl', h => by
    simp only [FieldList.toList, List.cons.injEq, Prod.mk.injEq] at h
    rw [h.1.1, h.1.2, FieldList.toListInjectiveFL h.2]

namespace Value

/-- Lexicographic comparison of character lists by code point
(an executable total order on strings). -/
def charListLe : List Char → List Char → Bool
  | [], _ => true
  | _ :: _, [] => false
  | c :: cs, d :: ds =>
    if c.toNat < d.toNat then true
    else if d.toNat < c.toNat then false
    else charListLe cs ds

theorem charListLe_total :
    ∀ a b, charListLe a b = true ∨ charListLe b a = true
  | [], _ => Or.inl rfl
  | _ :: _, [] => Or.inr rfl
  | c :: cs, d :: ds => by
    simp only [charListLe]
    rcases Nat.lt_trichotomy c.toNat d.toNat with h | h | h
    · left; simp [h]
    · have h1 : ¬ c.toNat < d.toNat := by omega
      have h2 : ¬ d.toNat < c.toNat := by omega
      simp only [if_neg h1, if_neg h2]
      exact charListLe_total cs ds
    · right; simp [h]

theorem charListLe_trans :
    ∀ a b c, charListLe a b = true → charListLe b c = true →
      charListLe a c = true
  | [], _, _, _, _ => rfl
  | x :: xs, [], _, hab, _ => by simp [charListLe] at hab
  | x :: xs, y :: ys, [], _, hbc => by simp [charListLe] at hbc
  | x :: xs, y :: ys, z :: zs, hab, hbc => by
    simp only [charListLe] at hab hbc ⊢
    split_ifs at hab hbc ⊢ <;> try omega
    all_goals try rfl
    all_goals try simp_all
    exact charListLe_trans xs ys zs hab hbc

theorem charListLe_antisymm :
    ∀ a b, charListLe a b = true → charListLe b a = true → a = b
  | [], [], _, _ => rfl
  | [], _ :: _, _, hba => by simp [charListLe] at hba
  | _ :: _, [], hab, _ => by simp [charListLe] at hab
  | c :: cs, d :: ds, hab, hba => by
    simp only [charListLe] at hab hba
    split_ifs at hab hba <;> try omega
    have hcd : c = d := Char.ext (UInt32.ext (by
      simp only [Char.toNat] at *
      omega))
    rw [hcd, charListLe_antisymm cs ds hab hba]

/-- Executable string order by code points. -/
def strLe (a b : String) : Bool := charListLe a.data b.data

theorem strLe_total (a b : String) : strLe a b = true ∨ strLe b a = true :=
  charListLe_total a.data b.data

theorem strLe_trans {a b c : String} (h1 : strLe a b = true)
    (h2 : strLe b c = true) : strLe a c = true :=
  charListLe_trans a.data b.data c.data h1 h2

theorem strLe_antisymm {a b : String} (h1 : strLe a b = true)
    (h2 : strLe b a = true) : a = b := by
  rcases a with ⟨da⟩
  rcases b with ⟨db⟩
  rw [charListLe_antisymm da db h1 h2]

/-- Ordering of object fields by key, used for the canonical form. -/
def fieldLe (p q : String × Value) : Prop := strLe p.1 q.1 = true

instance : DecidableRel fieldLe := fun p q =>
  inferInstanceAs (Decidable (strLe p.1 q.1 = true))

instance : IsTotal (String × Value) fieldLe :=
  ⟨fun p q => strLe_total p.1 q.1⟩

instance : IsTrans (String × Value) fieldLe :=
  ⟨fun _ _ _ h1 h2 => strLe_trans h1 h2⟩

/-- Insert a field into a key-sorted field list, keeping it sorted
(stable: an existing field with the same key stays behind). -/
def insertField (k : String) (v : Value) : FieldList → FieldList
  | .nil => .cons k v .nil
  | .cons k' v' tl =>
    if strLe k k' then .cons k v (.cons k' v' tl)
    else .cons k' v' (insertField k v tl)

/-- Stable sort of an object's fields by key (insertion sort). -/
def sortFields : FieldList → FieldList
  | .nil => .nil
  | .cons k v tl => insertField k v (sortFields tl)

theorem toList_insertField (k : String) (v : Value) (fs : FieldList) :
    (insertField k v fs).toList
      = List.orderedInsert fieldLe (k, v) fs.toList := by
  induction fs using FieldList.indFL with
  | hnil => rfl
  | hcons k' v' tl ih =>
    simp only [insertField, FieldList.toList, List.orderedInsert]
    by_cases h : strLe k k' = true
    · simp only [if_pos h, FieldList.toList]
      rw [if_pos]
      exact h
    · simp only [if_neg h, FieldList.toList, ih]
      rw [if_neg]
      exact h

theorem toList_sortFields (fs : FieldList) :
    (sortFields fs).toList = List.insertionSort fieldLe fs.toList := by
  induction fs using FieldList.indFL with
  | hnil => rfl
  | hcons k v tl ih =>
    simp only [sortFields, FieldList.toList, List.insertionSort,
      toList_insertField, ih]

mutual

/-- Canonical form of a value: object fields are key-sorted at every
depth; array element order is preserved.  This mirrors how the
`object-hash` npm package walks a value (objects are hashed with their
keys sorted, arrays in order). -/
def canon : Value → Value
  | .vArr xs => .vArr (canonL xs)
  | .vObj fs => .vObj (sortFields (canonF fs))
  | v => v

/-- Canonical form of each array element. -/
def canonL : ValueList → ValueList
  | .nil => .nil
  | .cons v tl => .cons (canon v) (canonL tl)

/-- Canonical form of each field value. -/
def canonF : FieldList → FieldList
  | .nil => .nil
  | .cons k v tl => .cons k (canon v) (canonF tl)

end

mutual

/-- Serialization of a (canonical) value to a string. -/
def serialize : Value → String
  | .vNull => "null"
  | .vUndef => "undefined"
  | .vBool b => cond b "true" "false"
  | .vInt n => "i" ++ toString n
  | .vStr s => "s" ++ s
  | .vArr xs => "a[" ++ serializeL xs ++ "]"
  | .vObj fs => "o[" ++ serializeF fs ++ "]"

/-- Serialization of array elements. -/
def serializeL : ValueList → String
  | .nil => ""
  | .cons v tl => serialize v ++ "," ++ serializeL tl

/-- Serialization of object fields. -/
def serializeF : FieldList → String
  | .nil => ""
  | .cons k v tl => k ++ ":" ++ serialize v ++ "," ++ serializeF tl

end

/-- Modelled from the spec (§4.1): the fingerprint of a structured
value, as computed by the external `object-hash` npm package —
deterministic, and invariant under object-key reordering at any depth
because objects are walked with their keys sorted.  We model the hash
as the canonical serialization itself; the spec only relies on
determinism and (probabilistic) collision resistance, which the
canonical serialization satisfies exactly. -/
def objHash (v : Value) : String := serialize (canon v)

/-- Whether a key of an embedded object occurs in a field list. -/
def keyMem (k : String) : FieldList → Bool
  | .nil => false
  | .cons k' _ tl => k' == k || keyMem k tl

/-- Whether the keys of a field list are pairwise distinct. -/
def nodupKeysB : FieldList → Bool
  | .nil => true
  | .cons k _ tl => !keyMem k tl && nodupKeysB tl

mutual

/-- Well-formedness of an embedded JavaScript value: object keys are
distinct at every depth (JavaScript objects cannot repeat a key). -/
def wfB : Value → Bool
  | .vArr xs => wfL xs
  | .vObj fs => nodupKeysB fs && wfF fs
  | _ => true

/-- Well-formedness of all array elements. -/
def wfL : ValueList → Bool
  | .nil => true
  | .cons v tl => wfB v && wfL tl

/-- Well-formedness of all field values. -/
def wfF : FieldList → Bool
  | .nil => true
  | .cons _ v tl => wfB v && wfF tl

end

/-- Number of fields of an embedded object. -/
def lenF : FieldList → Nat
  | .nil => 0
  | .cons _ _ tl => lenF tl + 1

/-- First field of an embedded object with the given key. -/
def lookupFL : FieldList → String → Option Value
  | .nil, _ => none
  | .cons k' w tl, k => if k' == k then some w else lookupFL tl k

mutual

/-- Structural equivalence of values: equal scalars, pointwise
equivalent arrays, and objects with the same fields (matched by key, in
any order) with equivalent values.  This formalizes the spec's
"structurally equal — same fields/values, any field order". -/
def structEqB : Value → Value → Bool
  | .vArr xs, .vArr ys => structEqL xs ys
  | .vObj fs, .vObj gs => lenF fs == lenF gs && fieldsMatch fs gs
  | a, b => a == b

/-- Pointwise structural equivalence of array elements. -/
def structEqL : ValueList → ValueList → Bool
  | .nil, .nil => true
  | .cons x xs, .cons y ys => structEqB x y && structEqL xs ys
  | _, _ => false

/-- Every field of the first list has a structurally equivalent value
under the same key in the second. -/
def fieldsMatch : FieldList → FieldList → Bool
  | .nil, _ => true
  | .cons k v tl, gs =>
    (match lookupFL gs k with
     | some w => structEqB v w
     | none => false) && fieldsMatch tl gs

end

theorem lookupFL_mem :
    ∀ {gs : FieldList} {k : String} {w : Value},
      lookupFL gs k = some w → (k, w) ∈ gs.toList := by
  intro gs
  induction gs using FieldList.indFL with
  | hnil => intro k w h; cases h
  | hcons k' w' tl ih =>
    intro k w h
    rw [lookupFL] at h
    by_cases hk : (k' == k) = true
    · rw [if_pos hk] at h
      injection h with h'
      have hkk : k' = k := by simpa using hk
      rw [FieldList.toList, hkk, h']
      exact List.mem_cons_self _ _
    · rw [if_neg hk] at h
      rw [FieldList.toList]
      exact List.mem_cons_of_mem _ (ih h)

theorem lenF_toList (fs : FieldList) : lenF fs = fs.toList.length := by
  induction fs using FieldList.indFL with
  | hnil => rfl
  | hcons k v tl ih => simp [lenF, FieldList.toList, ih]

theorem keyMem_iff (k : String) (fs : FieldList) :
    keyMem k fs = true ↔ k ∈ fs.toList.map Prod.fst := by
  induction fs using FieldList.indFL with
  | hnil => simp [keyMem, FieldList.toList]
  | hcons k' v tl ih =>
    rw [keyMem]
    simp only [Bool.or_eq_true, beq_iff_eq, ih, FieldList.toList,
      List.map_cons, List.mem_cons]
    constructor
    · rintro (h | h)
      · exact Or.inl h.symm
      · exact Or.inr h
    · rintro (h | h)
      · exact Or.inl h.symm
      · exact Or.inr h

theorem nodupKeysB_iff (fs : FieldList) :
    nodupKeysB fs = true ↔ (fs.toList.map Prod.fst).Nodup := by
  induction fs using FieldList.indFL with
  | hnil => simp [nodupKeysB, FieldList.toList]
  | hcons k v tl ih =>
    rw [nodupKeysB]
    have hkm : (!keyMem k tl) = true ↔ ¬ k ∈ tl.toList.map Prod.fst := by
      rw [← keyMem_iff k tl]
      simp
    simp only [Bool.and_eq_true, hkm, ih, FieldList.toList,
      List.map_cons, List.nodup_cons]

theorem wfL_iff (xs : ValueList) :
    wfL xs = true ↔ ∀ v ∈ xs.toList, wfB v = true := by
  induction xs using ValueList.indVL with
  | hnil => simp [wfL, ValueList.toList]
  | hcons v tl ih => simp [wfL, ValueList.toList, ih]

theorem wfF_iff (fs : FieldList) :
    wfF fs = true ↔ ∀ kv ∈ fs.toList, wfB kv.2 = true := by
  induction fs using FieldList.indFL with
  | hnil => simp [wfF, FieldList.toList]
  | hcons k v tl ih =>
    simp only [wfF, FieldList.toList, Bool.and_eq_true, ih,
      List.mem_cons]
    constructor
    · rintro ⟨h1, h2⟩ kv hkv
      rcases hkv with rfl | hkv
      · exact h1
      · exact h2 kv hkv
    · intro h
      exact ⟨h _ (Or.inl rfl), fun kv hkv => h kv (Or.inr hkv)⟩

theorem fieldsMatch_iff (fs gs : FieldList) :
    fieldsMatch fs gs = true
      ↔ ∀ kv ∈ fs.toList, ∃ w, lookupFL gs kv.1 = some w
          ∧ structEqB kv.2 w = true := by
  induction fs using FieldList.indFL with
  | hnil => simp [fieldsMatch, FieldList.toList]
  | hcons k v tl ih =>
    rw [fieldsMatch]
    rw [Bool.and_eq_true, ih]
    constructor
    · rintro ⟨h1, h2⟩ kv hkv
      rcases List.mem_cons.mp hkv with rfl | hkv'
      · cases hl : lookupFL gs k with
        | none => rw [hl] at h1; cases h1
        | some w =>
          rw [hl] at h1
          exact ⟨w, rfl, h1⟩
      · exact h2 kv hkv'
    · intro h
      constructor
      · rcases h (k, v) (List.mem_cons_self _ tl.toList) with ⟨w, hl, hs⟩
        rw [hl]
        exact hs
      · intro kv hkv
        exact h kv (List.mem_cons_of_mem _ hkv)

theorem toList_canonL (xs : ValueList) :
    (canonL xs).toList = xs.toList.map canon := by
  induction xs using ValueList.indVL with
  | hnil => rfl
  | hcons v tl ih => simp [canonL, ValueList.toList, ih]

theorem toList_canonF (fs : FieldList) :
    (canonF fs).toList = fs.toList.map fun kv => (kv.1, canon kv.2) := by
  induction fs using FieldList.indFL with
  | hnil => rfl
  | hcons k v tl ih => simp [canonF, FieldList.toList, ih]

/-- Two key-sorted field lists with the same fields and no duplicate
keys are equal. -/
theorem sorted_perm_nodupkeys_eq :
    ∀ (l m : List (String × Value)), l.Perm m → l.Sorted fieldLe →
      m.Sorted fieldLe → (l.map Prod.fst).Nodup → l = m := by
  intro l
  induction l with
  | nil =>
    intro m hp _ _ _
    exact hp.nil_eq
  | cons x l ih =>
    intro m hp hsl hsm hnd
    cases m with
    | nil =>
      have := hp.length_eq
      simp at this
    | cons y m =>
      have hsl' := List.sorted_cons.mp hsl
      have hsm' := List.sorted_cons.mp hsm
      have hnd2 : x.1 ∉ l.map Prod.fst ∧ (l.map Prod.fst).Nodup := by
        simpa using hnd
      have hxy : x = y := by
        have hx_mem : x ∈ y :: m := hp.mem_iff.mp (List.mem_cons_self x l)
        rcases List.mem_cons.mp hx_mem with h | hxm
        · exact h
        · have hy_mem : y ∈ x :: l :=
            hp.symm.mem_iff.mp (List.mem_cons_self y m)
          rcases List.mem_cons.mp hy_mem with h | hym
          · exact h.symm
          · exfalso
            have h1 : fieldLe x y := hsl'.1 y hym
            have h2 : fieldLe y x := hsm'.1 x hxm
            have hkey : x.1 = y.1 := strLe_antisymm h1 h2
            have : y.1 ∈ l.map Prod.fst := List.mem_map_of_mem Prod.fst hym
            rw [← hkey] at this
            exact hnd2.1 this
      subst hxy
      rw [ih m hp.cons_inv hsl'.2 hsm'.2 hnd2.2]

/-- Sorting by key is invariant under permutation of duplicate-free
field lists. -/
theorem insertionSort_eq_of_perm (l m : List (String × Value))
    (hp : l.Perm m) (hnd : (l.map Prod.fst).Nodup) :
    List.insertionSort fieldLe l = List.insertionSort fieldLe m := by
  apply sorted_perm_nodupkeys_eq
  · exact (List.perm_insertionSort fieldLe l).trans
      (hp.trans (List.perm_insertionSort fieldLe m).symm)
  · exact List.sorted_insertionSort fieldLe l
  · exact List.sorted_insertionSort fieldLe m
  · exact (((List.perm_insertionSort fieldLe l).map Prod.fst).nodup_iff).mpr
      hnd

/-- First-match lookup of a key in an association list
(`JavaScript` object field access). -/
def lookupF (l : List (String × Value)) (k : String) : Option Value :=
  (l.find? fun kv => kv.1 == k).map Prod.snd

theorem lookupF_cons_self (k : String) (v : Value)
    (l : List (String × Value)) : lookupF ((k, v) :: l) k = some v := by
  simp [lookupF]

theorem lookupF_cons_of_ne {k0 k : String} (v0 : Value)
    (l : List (String × Value)) (h : k0 ≠ k) :
    lookupF ((k0, v0) :: l) k = lookupF l k := by
  simp [lookupF, List.find?_cons_of_neg, h]

theorem lookupF_eq_of_mem :
    ∀ {l : List (String × Value)} {k : String} {v : Value},
      (l.map Prod.fst).Nodup → (k, v) ∈ l → lookupF l k = some v := by
  intro l
  induction l with
  | nil =>
    intro k v _ h
    cases h
  | cons kv0 l ih =>
    intro k v hnd hmem
    rcases kv0 with ⟨k0, v0⟩
    have hnd2 : k0 ∉ l.map Prod.fst ∧ (l.map Prod.fst).Nodup := by
      simpa using hnd
    rcases List.mem_cons.mp hmem with heq | hmem'
    · rw [show k0 = k from (congrArg Prod.fst heq).symm,
        show v0 = v from (congrArg Prod.snd heq).symm]
      exact lookupF_cons_self k v l
    · have hne : k0 ≠ k := by
        intro h
        apply hnd2.1
        rw [h]
        exact List.mem_map_of_mem Prod.fst hmem'
      rw [lookupF_cons_of_ne v0 l hne]
      exact ih hnd2.2 hmem'

/-- Canonicalize one field. -/
def canonPair (kv : String × Value) : String × Value := (kv.1, canon kv.2)

theorem map_canonPair_eq (l : List (String × Value))
    (hnd : (l.map Prod.fst).Nodup) :
    l.map canonPair
      = (l.map Prod.fst).map
          (fun k => (k, canon ((lookupF l k).getD .vNull))) := by
  induction l with
  | nil => rfl
  | cons kv0 l ih =>
    rcases kv0 with ⟨k0, v0⟩
    have hnd2 : k0 ∉ l.map Prod.fst ∧ (l.map Prod.fst).Nodup := by
      simpa using hnd
    simp only [List.map_cons]
    congr 1
    · simp [canonPair, lookupF_cons_self]
    · rw [ih hnd2.2]
      apply List.map_congr_left
      intro k hk
      have hne : k0 ≠ k := fun h => hnd2.1 (h ▸ hk)
      rw [lookupF_cons_of_ne v0 l hne]

/-- Canonicalized fields of two objects with the same keys and
canon-equal values are permutations of each other. -/
theorem map_canonPair_perm (Lf Lg : List (String × Value))
    (hnf : (Lf.map Prod.fst).Nodup) (hng : (Lg.map Prod.fst).Nodup)
    (hlen : Lf.length = Lg.length)
    (hcanon : ∀ kv ∈ Lf, ∃ kv' ∈ Lg, kv'.1 = kv.1 ∧
      canon kv.2 = canon kv'.2) :
    (Lf.map canonPair).Perm (Lg.map canonPair) := by
  have hsub : Lf.map Prod.fst ⊆ Lg.map Prod.fst := by
    intro k hk
    rcases List.mem_map.mp hk with ⟨kv, hkv, rfl⟩
    rcases hcanon kv hkv with ⟨kv', hkv', hkeq, _⟩
    rw [← hkeq]
    exact List.mem_map_of_mem Prod.fst hkv'
  have hkeysperm : (Lf.map Prod.fst).Perm (Lg.map Prod.fst) := by
    apply (List.subperm_of_subset hnf hsub).perm_of_length_le
    simp [hlen]
  have hfun : ∀ k ∈ Lf.map Prod.fst,
      (k, canon ((lookupF Lf k).getD .vNull))
        = (k, canon ((lookupF Lg k).getD .vNull)) := by
    intro k hk
    rcases List.mem_map.mp hk with ⟨kv, hkv, rfl⟩
    rcases hcanon kv hkv with ⟨kv', hkv', hkeq, hcv⟩
    have h1 : lookupF Lf kv.1 = some kv.2 :=
      lookupF_eq_of_mem hnf (by rw [Prod.mk.eta]; exact hkv)
    have h2 : lookupF Lg kv.1 = some kv'.2 := by
      apply lookupF_eq_of_mem hng
      rw [← hkeq, Prod.mk.eta]
      exact hkv'
    rw [h1, h2]
    simpa using hcv
  rw [map_canonPair_eq Lf hnf, map_canonPair_eq Lg hng,
    List.map_congr_left hfun]
  exact hkeysperm.map _

theorem sizeOf_lt_of_mem_toList :
    ∀ {xs : ValueList} {x : Value}, x ∈ xs.toList → sizeOf x < sizeOf xs
  | .nil, x, h => by cases h
  | .cons v tl, x, h => by
    rcases List.mem_cons.mp h with rfl | h'
    · simp only [ValueList.cons.sizeOf_spec]
      omega
    · have := sizeOf_lt_of_mem_toList h'
      simp only [ValueList.cons.sizeOf_spec]
      omega

theorem sizeOf_snd_lt_of_mem_toList :
    ∀ {fs : FieldList} {kv : String × Value},
      kv ∈ fs.toList → sizeOf kv.2 < sizeOf fs
  | .nil, kv, h => by cases h
  | .cons k v tl, kv, h => by
    rcases List.mem_cons.mp h with rfl | h'
    · simp only [FieldList.cons.sizeOf_spec]
      omega
    · have := sizeOf_snd_lt_of_mem_toList h'
      simp only [FieldList.cons.sizeOf_spec]
      omega

/-- Pointwise canon-equality of arrays from pointwise structural
equivalence. -/
theorem canonL_eq_of_structEqL :
    ∀ (xs ys : ValueList),
      (∀ x ∈ xs.toList, ∀ b, wfB x = true → wfB b = true →
        structEqB x b = true → canon x = canon b) →
      (∀ x ∈ xs.toList, wfB x = true) →
      (∀ y ∈ ys.toList, wfB y = true) →
      structEqL xs ys = true → canonL xs = canonL ys
  | .nil, .nil, _, _, _, _ => rfl
  | .nil, .cons _ _, _, _, _, h => by
    rw [structEqL.eq_def] at h
    exact Bool.noConfusion h
  | .cons _ _, .nil, _, _, _, h => by
    rw [structEqL.eq_def] at h
    exact Bool.noConfusion h
  | .cons x xs, .cons y ys, hi, hwx, hwy, h => by
    rw [structEqL.eq_2, Bool.and_eq_true] at h
    have hx : canon x = canon y :=
      hi x (List.mem_cons_self x xs.toList) y
        (hwx x (List.mem_cons_self x xs.toList))
        (hwy y (List.mem_cons_self y ys.toList)) h.1
    have hrest : canonL xs = canonL ys :=
      canonL_eq_of_structEqL xs ys
        (fun z hz => hi z (List.mem_cons_of_mem x hz))
        (fun z hz => hwx z (List.mem_cons_of_mem x hz))
        (fun z hz => hwy z (List.mem_cons_of_mem y hz)) h.2
    rw [canonL, canonL, hx, hrest]

/-- The canonical form is invariant under structural equivalence of
well-formed values: permuting object fields (at any depth) does not
change the canonical form.  This is the heart of the spec's
"deterministic fingerprint" contract. -/
theorem canon_eq_of_structEqB :
    ∀ a b : Value, wfB a = true → wfB b = true → structEqB a b = true →
      canon a = canon b := by
  have H : ∀ (n : Nat) (a b : Value), sizeOf a ≤ n → wfB a = true →
      wfB b = true → structEqB a b = true → canon a = canon b := by
    intro n
    induction n with
    | zero =>
      intro a b hsz _ _ _
      exact absurd hsz (by cases a <;> simp)
    | succ n ih =>
      intro a b hsz hwa hwb hs
      cases a with
      | vArr xs =>
        cases b with
        | vArr ys =>
          rw [structEqB.eq_1] at hs
          have hszxs : sizeOf xs ≤ n := by
            simp only [Value.vArr.sizeOf_spec] at hsz
            omega
          rw [wfB, wfL_iff] at hwa hwb
          show Value.vArr (canonL xs) = Value.vArr (canonL ys)
          rw [canonL_eq_of_structEqL xs ys
            (fun x hx b' hw1 hw2 hs' =>
              ih x b'
                (le_of_lt (lt_of_lt_of_le (sizeOf_lt_of_mem_toList hx)
                  hszxs)) hw1 hw2 hs')
            hwa hwb hs]
        | vNull => rw [structEqB.eq_def] at hs; exact Bool.noConfusion hs
        | vUndef => rw [structEqB.eq_def] at hs; exact Bool.noConfusion hs
        | vBool _ => rw [structEqB.eq_def] at hs; exact Bool.noConfusion hs
        | vInt _ => rw [structEqB.eq_def] at hs; exact Bool.noConfusion hs
        | vStr _ => rw [structEqB.eq_def] at hs; exact Bool.noConfusion hs
        | vObj _ => rw [structEqB.eq_def] at hs; exact Bool.noConfusion hs
      | vObj fs =>
        cases b with
        | vObj gs =>
          rw [structEqB.eq_2, Bool.and_eq_true] at hs
          rw [beq_iff_eq] at hs
          rcases hs with ⟨hlen, hsub⟩
          rw [wfB, Bool.and_eq_true, nodupKeysB_iff, wfF_iff] at hwa hwb
          have hszfs : sizeOf fs ≤ n := by
            simp only [Value.vObj.sizeOf_spec] at hsz
            omega
          have hcanon : ∀ kv ∈ fs.toList, ∃ kv' ∈ gs.toList,
              kv'.1 = kv.1 ∧ canon kv.2 = canon kv'.2 := by
            intro kv hkv
            rcases (fieldsMatch_iff fs gs).mp hsub kv hkv with ⟨w, hl, hs'⟩
            have hkv' : (kv.1, w) ∈ gs.toList := lookupFL_mem hl
            refine ⟨(kv.1, w), hkv', rfl, ?_⟩
            exact ih kv.2 w
              (le_of_lt (lt_of_lt_of_le (sizeOf_snd_lt_of_mem_toList hkv)
                hszfs))
              (hwa.2 kv hkv) (hwb.2 (kv.1, w) hkv') hs'
          have hperm :
              ((canonF fs).toList).Perm ((canonF gs).toList) := by
            rw [toList_canonF, toList_canonF]
            exact map_canonPair_perm fs.toList gs.toList hwa.1 hwb.1
              (by rw [← lenF_toList, ← lenF_toList, hlen]) hcanon
          have hndc : (((canonF fs).toList).map Prod.fst).Nodup := by
            rw [toList_canonF]
            have : (fs.toList.map fun kv => (kv.1, canon kv.2)).map Prod.fst
                = fs.toList.map Prod.fst := by
              rw [List.map_map]
              rfl
            rw [this]
            exact hwa.1
          show Value.vObj (sortFields (canonF fs))
              = Value.vObj (sortFields (canonF gs))
          congr 1
          apply FieldList.toListInjectiveFL
          rw [toList_sortFields, toList_sortFields]
          exact insertionSort_eq_of_perm _ _ hperm hndc
        | vNull => rw [structEqB.eq_def] at hs; exact Bool.noConfusion hs
        | vUndef => rw [structEqB.eq_def] at hs; exact Bool.noConfusion hs
        | vBool _ => rw [structEqB.eq_def] at hs; exact Bool.noConfusion hs
        | vInt _ => rw [structEqB.eq_def] at hs; exact Bool.noConfusion hs
        | vStr _ => rw [structEqB.eq_def] at hs; exact Bool.noConfusion hs
        | vArr _ => rw [structEqB.eq_def] at hs; exact Bool.noConfusion hs
      | vNull =>
        cases b <;> rw [structEqB.eq_def] at hs <;>
          first
          | exact Bool.noConfusion hs
          | (simp at hs; simp_all)
      | vUndef =>
        cases b <;> rw [structEqB.eq_def] at hs <;>
          first
          | exact Bool.noConfusion hs
          | (simp at hs; simp_all)
      | vBool x =>
        cases b <;> rw [structEqB.eq_def] at hs <;>
          first
          | exact Bool.noConfusion hs
          | (simp at hs; simp_all)
      | vInt x =>
        cases b <;> rw [structEqB.eq_def] at hs <;>
          first
          | exact Bool.noConfusion hs
          | (simp at hs; simp_all)
      | vStr x =>
        cases b <;> rw [structEqB.eq_def] at hs <;>
          first
          | exact Bool.noConfusion hs
          | (simp at hs; simp_all)
  intro a b
  exact H (sizeOf a) a b le_rfl

/-- The fingerprint hash is deterministic across structurally-equal
well-formed values (same object fields/values, any field order). -/
theorem objHash_eq_of_structEqB {a b : Value} (ha : wfB a = true)
    (hb : wfB b = true) (h : structEqB a b = true) :
    objHash a = objHash b := by
  rw [objHash, objHash, canon_eq_of_structEqB a b ha hb h]

end Value

/-! ## The cache model (`src/modules/cache/cache.ts`) -/

/-- A cache entry — a JavaScript object (key fields, and for persisted
entries also `data` and `timestamp`), as an association list of its
top-level fields in insertion order. -/
abbrev CacheEntry := List (String × Value)

/-- JavaScript object field access `entry[k]` (first occurrence). -/
def getField (e : CacheEntry) (k : String) : Option Value :=
  Value.lookupF e k

/-- JavaScript object-literal update `{...e, k: v}`: an existing field
keeps its position and gets the new value, a new field is appended. -/
def setField (e : CacheEntry) (k : String) (v : Value) : CacheEntry :=
  if e.any fun kv => kv.1 == k then
    e.map fun kv => if kv.1 == k then (k, v) else kv
  else e ++ [(k, v)]

/-- JavaScript `typeof value === 'object' && !Array.isArray(value)`:
true for plain objects and for `null` (`typeof null === 'object'`),
false for arrays and all scalars. -/
def jsObjectNotArray : Value → Bool
  | .vObj _ => true
  | .vNull => true
  | _ => false

/-- `hashObjectProps` (cache.ts 186-197): normalize a query/entry key
object.  The source walks `Object.entries`, replaces each field whose
value satisfies `typeof === 'object' && !Array.isArray` by its
`object-hash` fingerprint, and deletes each field whose original value
is `null` or `undefined`.  Both conditions test the original value, so
on (duplicate-free) JavaScript objects the net effect is: drop
null/undefined fields, fingerprint object-valued fields, pass scalars
and arrays through unchanged.  (A `null` field is assigned a hash and
then deleted — same net result.)  The source mutates its argument in
place; the model is pure.  The source's `typeof entry !== 'object'`
early return cannot fire for the object-typed entries modelled here. -/
def hashObjectProps (entry : CacheEntry) : CacheEntry :=
  (entry.filter fun kv =>
      !(kv.2 == Value.vNull) && !(kv.2 == Value.vUndef)).map
    fun kv =>
      if jsObjectNotArray kv.2 then (kv.1, Value.vStr (Value.objHash kv.2))
      else kv

/-- Millisecond value of a duration-unit suffix. -/
def unitMs (c : Char) : Option Int :=
  if c = 's' then some 1000
  else if c = 'm' then some 60000
  else if c = 'h' then some 3600000
  else if c = 'd' then some 86400000
  else if c = 'w' then some 604800000
  else none

/-- Decimal digits accumulator. -/
def parseDigitsAux : List Char → Nat → Option Nat
  | [], acc => some acc
  | c :: cs, acc =>
    if c.isDigit then parseDigitsAux cs (acc * 10 + (c.toNat - 48))
    else none

/-- Modelled from the spec: `durationStringToMs` lives in
`src/helpers/format.js`, which is not among the provided sources.
§4.2: "Duration strings use a compact unit suffix grammar: an integer
magnitude followed by one of `s` (seconds), `m` (minutes), `h` (hours),
`d` (days), `w` (weeks); parsing an unrecognized suffix or non-numeric
magnitude is an error."  A parse error is `none` (JavaScript `NaN`). -/
def durationStringToMs (str : String) : Option Int :=
  match str.data.getLast? with
  | none => none
  | some u =>
    match unitMs u with
    | none => none
    | some ms =>
      let digits := str.data.dropLast
      if digits.isEmpty then none
      else
        match parseDigitsAux digits 0 with
        | none => none
        | some n => some ((n : Int) * ms)

/-- Cache configuration: per-store duration strings (with a `default`
fallback) and the expiration-logging flag (logging itself is an
external side effect and is not part of the state model). -/
structure CacheConfigs where
  expiration : List (String × String)
  logExpiration : Bool
  deriving DecidableEq

/-- String-map lookup. -/
def findStr (l : List (String × String)) (k : String) : Option String :=
  (l.find? fun kv => kv.1 == k).map Prod.snd

/-- `getExpiration` (cache.ts 214-218), the spec's `resolveTTL`:
`this.configs.expiration[store] || this.configs.expiration.default`
parsed to milliseconds.  `||` also falls back to the default when the
configured string is empty (falsy). -/
def resolveDurationStr (cfg : CacheConfigs) (store : String) :
    Option String :=
  match findStr cfg.expiration store with
  | some s =>
    if s.isEmpty then findStr cfg.expiration "default" else some s
  | none => findStr cfg.expiration "default"

def getExpiration (cfg : CacheConfigs) (store : String) : Option Int :=
  match resolveDurationStr cfg store with
  | some s => durationStringToMs s
  | none => none

/-- `isExpired` (cache.ts 206-212):
`entry.timestamp + expiration < Date.now()`.  A missing or non-numeric
timestamp, or an unresolvable duration, makes the JavaScript comparison
`NaN < now`, which is false (never expired).  The `logExpiration`
console warning is an external effect outside the state model. -/
def isExpired (cfg : CacheConfigs) (store : String) (entry : CacheEntry)
    (now : Int) : Bool :=
  match getField entry "timestamp", getExpiration cfg store with
  | some (.vInt ts), some ttl => decide (ts + ttl < now)
  | _, _ => false

/-- One Dexie table: its registered name, the primary-key field of its
index shape (`'&params'` registers primary key `params`), and its rows. -/
structure StoreState where
  name : String
  pk : String
  entries : List CacheEntry
  deriving DecidableEq

/-- The persistent container: the tables registered by `init`. -/
structure CacheState where
  stores : List StoreState
  deriving DecidableEq

/-- `this.db[store]`: the table registered under a name, if any. -/
def getTable (s : CacheState) (store : String) : Option StoreState :=
  s.stores.find? fun t => t.name == store

/-- Replace a table's rows. -/
def setTable (s : CacheState) (store : String)
    (entries : List CacheEntry) : CacheState :=
  ⟨s.stores.map fun t =>
    if t.name == store then ⟨t.name, t.pk, entries⟩ else t⟩

/-- Dexie `Table.where(obj)` equality matching: the entry's value at
every field of the (normalized) where object equals that field. -/
def whereMatch (w : CacheEntry) (e : CacheEntry) : Bool :=
  w.all fun kv => getField e kv.1 == some kv.2

/-- Sort key of an entry under `orderBy k`: the serialized value of
field `k` (entries without the field sort first). -/
def orderKey (k : String) (e : CacheEntry) : String :=
  match getField e k with
  | none => ""
  | some v => "v" ++ Value.serialize v

/-- Dexie `Table.orderBy(k)` ordering relation: a deterministic total
preorder on entries keyed by field `k`.  (The spec only fixes
"ascending by default" ordering over the matched set; the concrete
collation of the underlying engine is abstracted by this executable
total order.) -/
def entryLe (k : String) (e1 e2 : CacheEntry) : Prop :=
  Value.strLe (orderKey k e1) (orderKey k e2) = true

instance (k : String) : DecidableRel (entryLe k) := fun e1 e2 =>
  inferInstanceAs (Decidable (Value.strLe (orderKey k e1) (orderKey k e2) = true))

instance (k : String) : IsTotal CacheEntry (entryLe k) :=
  ⟨fun e1 e2 => Value.strLe_total (orderKey k e1) (orderKey k e2)⟩

instance (k : String) : IsTrans CacheEntry (entryLe k) :=
  ⟨fun _ _ _ h1 h2 => Value.strLe_trans h1 h2⟩

/-- Stable sort of a table's rows by the `orderBy` field. -/
def sortEntries (k : String) (l : List CacheEntry) : List CacheEntry :=
  List.insertionSort (entryLe k) l

/-- `['desc', 'DESC'].includes(query.order)` guarded by truthiness of
`query.order` (cache.ts 142). -/
def isDesc : Option String → Bool
  | some o => o == "desc" || o == "DESC"
  | none => false

/-- The caller-facing query object (cache.ts `CacheQuery`): `where` is
renamed `whereQ` (a Lean keyword) and `filter` is `filterQ`. -/
structure CacheQuery where
  orderBy : Option String
  order : Option String
  whereQ : Option CacheEntry
  filterQ : Option (CacheEntry → Bool)
  includeExpired : Bool
  limit : Option Nat

/-- Result shape of `find`: a single optional entry when `limit` is
absent, a list of entries when present. -/
inductive FindResult where
  | one : Option CacheEntry → FindResult
  | many : List CacheEntry → FindResult
  deriving DecidableEq

/-- A rejected promise from the underlying engine: the error's `name`
and the optional `inner` error's name (Dexie nests causes). -/
structure JsError where
  name : String
  innerName : Option String
  deriving DecidableEq

deriving instance DecidableEq for Except

/-- `Dexie.errnames.Upgrade`. -/
def errnamesUpgrade : String := "UpgradeError"

/-- The names collected by `handleError` (cache.ts 226-227) include the
upgrade-error name. -/
def isUpgradeSignal (e : JsError) : Bool :=
  e.name == errnamesUpgrade || e.innerName == some errnamesUpgrade

/-- `clearAll` (cache.ts 240-242): `this.db.delete()` destroys the
whole container for the namespace — every store, unconditionally.  The
next operation re-creates it from the registered schema at the current
version, empty (§4.7); the model collapses destroy-and-recreate into
"same registered tables, no rows". -/
def clearAll (s : CacheState) : CacheState :=
  ⟨s.stores.map fun t => ⟨t.name, t.pk, []⟩⟩

/-- `handleError` (cache.ts 225-233): collect `error.name` and
`error.inner?.name`; if they include `Dexie.errnames.Upgrade`, warn and
`clearAll`.  Any other error is swallowed with no state change. -/
def handleError (e : JsError) (s : CacheState) : CacheState :=
  if isUpgradeSignal e then clearAll s else s

/-- Dexie `Table.put`: upsert on the primary key — replace the row with
the same primary-key value, else append. -/
def putEntry (pk : String) (e : CacheEntry) :
    List CacheEntry → List CacheEntry
  | [] => [e]
  | x :: xs =>
    if getField x pk == getField e pk then e :: xs
    else x :: putEntry pk e xs

/-- `save` (cache.ts 165-178): no-op (logged `Store not found`) for an
unknown store; otherwise normalize the caller's key fields with
`hashObjectProps`, merge in `data` and `timestamp: Date.now()` (object
spread — these override caller fields of the same name), and `put`.
A rejected put is caught and routed to `handleError`; `save` never
rethrows.  `fault` injects the underlying put rejection. -/
def save (s : CacheState) (store : String) (data : Value)
    (entry : CacheEntry) (now : Int) (fault : Option JsError) :
    CacheState :=
  match getTable s store with
  | none => s
  | some t =>
    match fault with
    | some e => handleError e s
    | none =>
      let e' := setField (setField (hashObjectProps entry) "data" data)
        "timestamp" (.vInt now)
      setTable s store (putEntry t.pk e' t.entries)

/-- `find` (cache.ts 130-158): `undefined` (logged) for an unknown
store; otherwise chain over the table — `orderBy`, `desc`, `where` on
the `hashObjectProps`-normalized where object, the caller's `filter`,
the expiration filter unless `includeExpired` — then `first()` without
`limit` and `limit(n).toArray()` with it.  There is no try/catch: a
rejected read (`fault`) propagates to the caller.  `find` performs no
writes; the state is returned unchanged on every success path. -/
def find (cfg : CacheConfigs) (s : CacheState) (store : String)
    (q : CacheQuery) (now : Int) (fault : Option JsError) :
    Except JsError (CacheState × FindResult) :=
  match getTable s store with
  | none => .ok (s, .one none)
  | some t =>
    match fault with
    | some e => .error e
    | none =>
      let c1 :=
        match q.orderBy with
        | some k => sortEntries k t.entries
        | none => t.entries
      let c2 := if isDesc q.order then c1.reverse else c1
      let c3 :=
        match q.whereQ with
        | some w => c2.filter (whereMatch (hashObjectProps w))
        | none => c2
      let c4 :=
        match q.filterQ with
        | some p => c3.filter p
        | none => c3
      let c5 :=
        if q.includeExpired then c4
        else c4.filter fun e => !isExpired cfg store e now
      match q.limit with
      | none => .ok (s, .one c5.head?)
      | some n => .ok (s, .many (c5.take n))

/-- The deletion predicate of `prune`'s loop (cache.ts 256-257):
`entry.timestamp < expirationLimit` with
`expirationLimit = Date.now() - getExpiration(store)`; an unresolvable
duration or a missing/non-numeric timestamp makes the JavaScript
comparison against `NaN` false (the entry is kept). -/
def expiredB (cfg : CacheConfigs) (store : String) (now : Int)
    (e : CacheEntry) : Bool :=
  match getField e "timestamp", getExpiration cfg store with
  | some (.vInt ts), some ttl => decide (ts < now - ttl)
  | _, _ => false

/-- The per-store body of `prune`'s loop (cache.ts 252-260): resolve
`expirationLimit = Date.now() - getExpiration(store)` and delete every
row with `entry.timestamp < expirationLimit` (`expiredB`).
`this.db[store]` is `undefined` for an unregistered name, so
`table.filter` throws a `TypeError` that rejects `prune` — there is no
store-existence check and no try/catch.  Deletions of earlier stores
are already committed when the loop throws; the model's error result
carries no state. -/
def pruneLoop (cfg : CacheConfigs) (s : CacheState) (now : Int) :
    List String → Except JsError (CacheState × List (String × Nat))
  | [] => .ok (s, [])
  | store :: rest =>
    match getTable s store with
    | none => .error ⟨"TypeError", none⟩
    | some t =>
      let expiredP := expiredB cfg store now
      let removed := (t.entries.filter expiredP).length
      let s' := setTable s store (t.entries.filter fun e => !expiredP e)
      match pruneLoop cfg s' now rest with
      | .error e => .error e
      | .ok (s'', rep) =>
        .ok (s'', if removed == 0 then rep else (store, removed) :: rep)

/-- `prune` (cache.ts 248-262): sweep the given stores (all registered
tables when the argument is absent; the source also coerces a single
string to a one-element list), deleting expired rows per store, and
report a mapping from store name to the number of rows removed, with
zero-removal stores omitted (`if (expired)` — 0 is falsy). -/
def prune (cfg : CacheConfigs) (s : CacheState)
    (stores : Option (List String)) (now : Int) :
    Except JsError (CacheState × List (String × Nat)) :=
  let targets :=
    match stores with
    | none => s.stores.map fun t => t.name
    | some l => l
  pruneLoop cfg s now targets

/-! ## Helper lemmas about entries and the table operations -/

/-- Normalization of a single field value, as `hashObjectProps` applies
it to the fields that survive the null/undefined filter. -/
def normField (v : Value) : Value :=
  if jsObjectNotArray v then .vStr (Value.objHash v) else v

theorem hashObjectProps_eq (e : CacheEntry) :
    hashObjectProps e
      = (e.filter fun kv =>
          !(kv.2 == Value.vNull) && !(kv.2 == Value.vUndef)).map
        fun kv => (kv.1, normField kv.2) := by
  rw [hashObjectProps]
  apply List.map_congr_left
  intro kv _
  rw [normField]
  by_cases h : jsObjectNotArray kv.2 = true
  · simp [h]
  · simp [h]

theorem keys_hashObjectProps (e : CacheEntry) :
    (hashObjectProps e).map Prod.fst
      = ((e.filter fun kv =>
          !(kv.2 == Value.vNull) && !(kv.2 == Value.vUndef)).map Prod.fst) := by
  rw [hashObjectProps_eq, List.map_map]
  rfl

theorem nodup_keys_hashObjectProps {e : CacheEntry}
    (h : (e.map Prod.fst).Nodup) :
    ((hashObjectProps e).map Prod.fst).Nodup := by
  rw [keys_hashObjectProps]
  exact ((List.filter_sublist e).map Prod.fst).nodup h

theorem mem_hashObjectProps_of {e : CacheEntry} {k : String} {u : Value}
    (hmem : (k, u) ∈ e) (hn : u ≠ Value.vNull) (hu : u ≠ Value.vUndef) :
    (k, normField u) ∈ hashObjectProps e := by
  rw [hashObjectProps_eq]
  refine List.mem_map.mpr ⟨(k, u), ?_, rfl⟩
  rw [List.mem_filter]
  exact ⟨hmem, by simp [hn, hu]⟩

theorem mem_hashObjectProps_elim {e : CacheEntry} {k : String} {v : Value}
    (hmem : (k, v) ∈ hashObjectProps e) :
    ∃ u, (k, u) ∈ e ∧ u ≠ Value.vNull ∧ u ≠ Value.vUndef
      ∧ v = normField u := by
  rw [hashObjectProps_eq] at hmem
  rcases List.mem_map.mp hmem with ⟨kv, hkv, heq⟩
  rw [List.mem_filter] at hkv
  refine ⟨kv.2, ?_, ?_, ?_, ?_⟩
  · rw [show k = kv.1 from (congrArg Prod.fst heq).symm, Prod.mk.eta]
    exact hkv.1
  · intro h
    simp [h] at hkv
  · intro h
    simp [h] at hkv
  · exact (congrArg Prod.snd heq).symm

theorem lookupF_mem {l : List (String × Value)} {k : String} {v : Value}
    (h : Value.lookupF l k = some v) : (k, v) ∈ l := by
  rw [Value.lookupF] at h
  rcases Option.map_eq_some'.mp h with ⟨kv, hfind, hsnd⟩
  have hmem := List.mem_of_find?_eq_some hfind
  have hpred := List.find?_some hfind
  rw [beq_iff_eq] at hpred
  rw [← hpred, ← hsnd, Prod.mk.eta]
  exact hmem

theorem lookupF_map_replace :
    ∀ (e : CacheEntry) (k : String) (v : Value),
      (e.any fun kv => kv.1 == k) = true →
      Value.lookupF
        (e.map fun kv => if kv.1 == k then (k, v) else kv) k = some v := by
  intro e k v h
  induction e with
  | nil => exact Bool.noConfusion h
  | cons x xs ih =>
    rcases x with ⟨k0, v0⟩
    by_cases hx : (k0 == k) = true
    · rw [List.map_cons]
      rw [show (if ((k0, v0).1 == k) = true then (k, v) else (k0, v0)) = (k, v)
        from if_pos hx]
      exact Value.lookupF_cons_self k v _
    · have hxne : k0 ≠ k := by simpa using hx
      rw [List.map_cons]
      rw [show (if ((k0, v0).1 == k) = true then (k, v) else (k0, v0))
          = (k0, v0) from if_neg hx]
      rw [Value.lookupF_cons_of_ne v0 _ hxne]
      apply ih
      rcases List.any_eq_true.mp h with ⟨kv, hkv, hkvk⟩
      rcases List.mem_cons.mp hkv with rfl | hkv'
      · exact absurd hkvk hx
      · exact List.any_eq_true.mpr ⟨kv, hkv', hkvk⟩

theorem lookupF_append_single :
    ∀ (e : CacheEntry) (k : String) (v : Value),
      (e.any fun kv => kv.1 == k) = false →
      Value.lookupF (e ++ [(k, v)]) k = some v := by
  intro e k v h
  induction e with
  | nil => exact Value.lookupF_cons_self k v []
  | cons x xs ih =>
    rcases x with ⟨k0, v0⟩
    rw [List.any_cons] at h
    rw [Bool.or_eq_false_iff] at h
    have hxne : k0 ≠ k := by
      have := h.1
      simpa using this
    rw [List.cons_append, Value.lookupF_cons_of_ne v0 _ hxne]
    exact ih h.2

theorem getField_setField_self (e : CacheEntry) (k : String) (v : Value) :
    getField (setField e k v) k = some v := by
  rw [setField]
  by_cases h : (e.any fun kv => kv.1 == k) = true
  · rw [if_pos h]
    exact lookupF_map_replace e k v h
  · rw [if_neg h]
    exact lookupF_append_single e k v (Bool.eq_false_iff.mpr h)

theorem lookupF_map_replace_ne :
    ∀ (e : CacheEntry) (k k' : String) (v : Value), k ≠ k' →
      Value.lookupF (e.map fun kv => if kv.1 == k then (k, v) else kv) k'
        = Value.lookupF e k' := by
  intro e k k' v hne
  induction e with
  | nil => rfl
  | cons x xs ih =>
    rcases x with ⟨k0, v0⟩
    rw [List.map_cons]
    by_cases hx : (k0 == k) = true
    · rw [show (if ((k0, v0).1 == k) = true then (k, v) else (k0, v0))
          = (k, v) from if_pos hx]
      have hxk : k0 = k := by simpa using hx
      rw [Value.lookupF_cons_of_ne v _ hne]
      rw [Value.lookupF_cons_of_ne v0 _ (by rw [hxk]; exact hne)]
      exact ih
    · rw [show (if ((k0, v0).1 == k) = true then (k, v) else (k0, v0))
          = (k0, v0) from if_neg hx]
      by_cases hx' : k0 = k'
      · rw [hx', Value.lookupF_cons_self, Value.lookupF_cons_self]
      · rw [Value.lookupF_cons_of_ne v0 _ hx',
          Value.lookupF_cons_of_ne v0 _ hx']
        exact ih

theorem lookupF_append_single_ne :
    ∀ (e : CacheEntry) (k k' : String) (v : Value), k ≠ k' →
      Value.lookupF (e ++ [(k, v)]) k' = Value.lookupF e k' := by
  intro e k k' v hne
  induction e with
  | nil =>
    rw [List.nil_append, Value.lookupF_cons_of_ne v [] hne]
  | cons x xs ih =>
    rcases x with ⟨k0, v0⟩
    by_cases hx' : k0 = k'
    · rw [hx', List.cons_append, Value.lookupF_cons_self,
        Value.lookupF_cons_self]
    · rw [List.cons_append, Value.lookupF_cons_of_ne v0 _ hx',
        Value.lookupF_cons_of_ne v0 _ hx']
      exact ih

theorem getField_setField_ne (e : CacheEntry) (k k' : String) (v : Value)
    (h : k ≠ k') : getField (setField e k v) k' = getField e k' := by
  rw [setField]
  by_cases ha : (e.any fun kv => kv.1 == k) = true
  · rw [if_pos ha]
    exact lookupF_map_replace_ne e k k' v h
  · rw [if_neg ha]
    exact lookupF_append_single_ne e k k' v h

theorem putEntry_mem {pk : String} {e : CacheEntry} :
    ∀ {l : List CacheEntry} {x : CacheEntry},
      x ∈ putEntry pk e l → x = e ∨ x ∈ l := by
  intro l
  induction l with
  | nil =>
    intro x hx
    rw [putEntry] at hx
    rcases List.mem_singleton.mp hx with rfl
    exact Or.inl rfl
  | cons y ys ih =>
    intro x hx
    rw [putEntry] at hx
    by_cases hy : (getField y pk == getField e pk) = true
    · rw [if_pos hy] at hx
      rcases List.mem_cons.mp hx with rfl | hx'
      · exact Or.inl rfl
      · exact Or.inr (List.mem_cons_of_mem y hx')
    · rw [if_neg hy] at hx
      rcases List.mem_cons.mp hx with rfl | hx'
      · exact Or.inr (List.mem_cons_self x ys)
      · rcases ih hx' with h | h
        · exact Or.inl h
        · exact Or.inr (List.mem_cons_of_mem y h)

theorem putEntry_self_mem (pk : String) (e : CacheEntry) :
    ∀ l : List CacheEntry, e ∈ putEntry pk e l := by
  intro l
  induction l with
  | nil =>
    rw [putEntry]
    exact List.mem_singleton.mpr rfl
  | cons y ys ih =>
    rw [putEntry]
    by_cases hy : (getField y pk == getField e pk) = true
    · rw [if_pos hy]
      exact List.mem_cons_self e ys
    · rw [if_neg hy]
      exact List.mem_cons_of_mem y ih

/-- The engine invariant for a table: primary-key values are unique. -/
def pkNodup (pk : String) (l : List CacheEntry) : Prop :=
  (l.map fun x => getField x pk).Nodup

theorem pkNodup_putEntry {pk : String} {e : CacheEntry} :
    ∀ {l : List CacheEntry}, pkNodup pk l → pkNodup pk (putEntry pk e l) := by
  intro l
  induction l with
  | nil =>
    intro _
    simp [putEntry, pkNodup]
  | cons y ys ih =>
    intro hnd
    have hnd2 : getField y pk ∉ ys.map (fun x => getField x pk)
        ∧ pkNodup pk ys := by
      rw [pkNodup] at hnd
      simpa [pkNodup] using hnd
    rw [putEntry]
    by_cases hy : (getField y pk == getField e pk) = true
    · rw [if_pos hy]
      rw [beq_iff_eq] at hy
      rw [pkNodup, List.map_cons, List.nodup_cons]
      exact ⟨hy ▸ hnd2.1, hnd2.2⟩
    · rw [if_neg hy]
      rw [pkNodup, List.map_cons, List.nodup_cons]
      constructor
      · intro hmem
        rcases List.mem_map.mp hmem with ⟨x, hx, hfx⟩
        rcases putEntry_mem hx with rfl | hx'
        · rw [beq_iff_eq] at hy
          exact hy hfx.symm
        · exact hnd2.1 (hfx ▸ List.mem_map_of_mem _ hx')
      · exact ih hnd2.2

theorem head?_eq_of_all {α : Type} {l : List α} {a : α} (hne : a ∈ l)
    (hall : ∀ x ∈ l, x = a) : l.head? = some a := by
  cases l with
  | nil => cases hne
  | cons x xs => rw [List.head?, hall x (List.mem_cons_self x xs)]

theorem unitMs_pos {c : Char} {ms : Int} (h : unitMs c = some ms) :
    0 < ms := by
  rw [unitMs] at h
  split_ifs at h <;> simp_all <;> omega

theorem durationStringToMs_nonneg {str : String} {ttl : Int}
    (h : durationStringToMs str = some ttl) : 0 ≤ ttl := by
  rw [durationStringToMs] at h
  cases hl : str.data.getLast? with
  | none => rw [hl] at h; cases h
  | some u =>
    rw [hl] at h
    dsimp only at h
    cases hu : unitMs u with
    | none => rw [hu] at h; cases h
    | some ms =>
      rw [hu] at h
      dsimp only at h
      by_cases he : str.data.dropLast.isEmpty = true
      · rw [if_pos he] at h
        cases h
      · rw [if_neg he] at h
        cases hp : parseDigitsAux str.data.dropLast 0 with
        | none => rw [hp] at h; cases h
        | some n =>
          rw [hp] at h
          have : ((n : Int) * ms) = ttl := by
            cases h
            rfl
          rw [← this]
          exact mul_nonneg (Int.ofNat_nonneg n) (le_of_lt (unitMs_pos hu))

theorem getExpiration_nonneg {cfg : CacheConfigs} {store : String}
    {ttl : Int} (h : getExpiration cfg store = some ttl) : 0 ≤ ttl := by
  rw [getExpiration] at h
  cases hr : resolveDurationStr cfg store with
  | none => rw [hr] at h; cases h
  | some s =>
    rw [hr] at h
    exact durationStringToMs_nonneg h

/-- Well-formedness of a caller-supplied key object: duplicate-free
keys at every depth. -/
def entryWfB (e : CacheEntry) : Bool :=
  Value.wfB (.vObj (FieldList.ofList e))

theorem entryWfB_iff {e : CacheEntry} :
    entryWfB e = true
      ↔ (e.map Prod.fst).Nodup ∧ ∀ kv ∈ e, Value.wfB kv.2 = true := by
  rw [entryWfB]
  rw [show Value.wfB (.vObj (FieldList.ofList e))
      = (Value.nodupKeysB (FieldList.ofList e)
          && Value.wfF (FieldList.ofList e)) from rfl]
  rw [Bool.and_eq_true, Value.nodupKeysB_iff, Value.wfF_iff,
    FieldList.toListOfListFL]

/-- Per-field key equivalence for the corrected key-determinism
property: object-valued fields (which `hashObjectProps` fingerprints)
may differ by object-field order at any depth; every other field must
be equal as a value — arrays in particular are passed through unhashed,
so their contents must match exactly. -/
def keyFieldEquivB (v w : Value) : Bool :=
  match v, w with
  | .vObj _, .vObj _ => Value.structEqB v w
  | _, _ => v == w

/-- Key-object equivalence: the same top-level fields (in any order),
with `keyFieldEquivB`-related values. -/
def keyObjEquivB (e1 e2 : CacheEntry) : Bool :=
  (e1.all fun kv =>
    e2.any fun kv' => kv.1 == kv'.1 && keyFieldEquivB kv.2 kv'.2) &&
  (e2.all fun kv =>
    e1.any fun kv' => kv.1 == kv'.1 && keyFieldEquivB kv'.2 kv.2)

theorem normField_eq_of_keyFieldEquivB {u' u : Value}
    (hw' : Value.wfB u' = true) (hw : Value.wfB u = true)
    (h : keyFieldEquivB u' u = true) : normField u' = normField u := by
  cases u' <;> cases u <;>
    rw [keyFieldEquivB.eq_def] at h <;> dsimp only at h <;>
    first
    | (rw [beq_iff_eq] at h
       rw [h])
    | (simp only [normField, jsObjectNotArray, if_true]
       exact congrArg Value.vStr (Value.objHash_eq_of_structEqB hw' hw h))

theorem find?_setTable_map {store : String} {t : StoreState}
    (entries : List CacheEntry) :
    ∀ l : List StoreState,
      (l.find? fun u => u.name == store) = some t →
      ((l.map fun u =>
          if u.name == store then ⟨u.name, u.pk, entries⟩ else u).find?
        fun u => u.name == store)
        = some ⟨t.name, t.pk, entries⟩ := by
  intro l
  induction l with
  | nil => intro h; cases h
  | cons y ys ih =>
    intro h
    rw [List.map_cons]
    by_cases hy : (y.name == store) = true
    · rw [@List.find?_cons_of_pos _ (fun u : StoreState => u.name == store) y ys hy] at h
      injection h with h'
      subst h'
      rw [if_pos hy]
      exact @List.find?_cons_of_pos _ (fun u : StoreState => u.name == store) _ _ hy
    · rw [@List.find?_cons_of_neg _ (fun u : StoreState => u.name == store) y ys hy] at h
      rw [if_neg hy]
      rw [@List.find?_cons_of_neg _ (fun u : StoreState => u.name == store) y _ hy]
      exact ih h

theorem getTable_setTable_self {s : CacheState} {store : String}
    {t : StoreState} (ht : getTable s store = some t)
    (entries : List CacheEntry) :
    getTable (setTable s store entries) store
      = some ⟨t.name, t.pk, entries⟩ := by
  rcases s with ⟨stores⟩
  rw [getTable] at ht
  rw [setTable, getTable]
  exact find?_setTable_map entries stores ht

theorem eq_null_of_keyFieldEquivB_null {u : Value}
    (h : keyFieldEquivB .vNull u = true) : u = .vNull := by
  cases u <;> rw [keyFieldEquivB.eq_def] at h <;> dsimp only at h <;>
    first
    | rfl
    | simp at h

theorem eq_undef_of_keyFieldEquivB_undef {u : Value}
    (h : keyFieldEquivB .vUndef u = true) : u = .vUndef := by
  cases u <;> rw [keyFieldEquivB.eq_def] at h <;> dsimp only at h <;>
    first
    | rfl
    | simp at h

/-- The entry written by `save` matches the where-query normalized from
any equivalent key object. -/
theorem whereMatch_saved {e1 e2 : CacheEntry} {data : Value} {now : Int}
    (hw1 : entryWfB e1 = true) (hw2 : entryWfB e2 = true)
    (heq : keyObjEquivB e1 e2 = true)
    (hd2 : "data" ∉ e2.map Prod.fst)
    (hts2 : "timestamp" ∉ e2.map Prod.fst) :
    whereMatch (hashObjectProps e2)
      (setField (setField (hashObjectProps e1) "data" data)
        "timestamp" (.vInt now)) = true := by
  rw [whereMatch, List.all_eq_true]
  rintro ⟨k, v⟩ hkv
  rw [beq_iff_eq]
  obtain ⟨u, hue2, hun, huu, hv⟩ := mem_hashObjectProps_elim hkv
  have hk_ne_ts : k ≠ "timestamp" := fun hh =>
    hts2 (hh ▸ List.mem_map_of_mem Prod.fst hue2)
  have hk_ne_d : k ≠ "data" := fun hh =>
    hd2 (hh ▸ List.mem_map_of_mem Prod.fst hue2)
  rw [getField_setField_ne _ _ _ _ fun hh => hk_ne_ts hh.symm]
  rw [getField_setField_ne _ _ _ _ fun hh => hk_ne_d hh.symm]
  have h2 := heq
  rw [keyObjEquivB, Bool.and_eq_true] at h2
  have h2 := h2.2
  rw [List.all_eq_true] at h2
  have hany := h2 (k, u) hue2
  rw [List.any_eq_true] at hany
  obtain ⟨⟨k1, u'⟩, hk1e1, hcond⟩ := hany
  rw [Bool.and_eq_true, beq_iff_eq] at hcond
  obtain ⟨hkk1, hequiv⟩ := hcond
  have hku' : (k, u') ∈ e1 := by
    have : k = k1 := hkk1
    rw [this]
    exact hk1e1
  have hu'n : u' ≠ Value.vNull := by
    intro hh
    rw [hh] at hequiv
    exact hun (eq_null_of_keyFieldEquivB_null hequiv)
  have hu'u : u' ≠ Value.vUndef := by
    intro hh
    rw [hh] at hequiv
    exact huu (eq_undef_of_keyFieldEquivB_undef hequiv)
  have hmem' : (k, normField u') ∈ hashObjectProps e1 :=
    mem_hashObjectProps_of hku' hu'n hu'u
  have hnd1 := nodup_keys_hashObjectProps (entryWfB_iff.mp hw1).1
  rw [show getField (hashObjectProps e1) k = some (normField u') from
    Value.lookupF_eq_of_mem hnd1 hmem']
  rw [hv]
  congr 1
  exact normField_eq_of_keyFieldEquivB
    ((entryWfB_iff.mp hw1).2 (k1, u') hk1e1)
    ((entryWfB_iff.mp hw2).2 (k, u) hue2) hequiv

/-- After `save`, a default `find` (only a `where` clause) with any
equivalent key object returns exactly the entry just written. -/
theorem find_after_save_general (cfg : CacheConfigs) (s : CacheState)
    (store : String) (t : StoreState) (data : Value) (e1 e2 : CacheEntry)
    (now ttl : Int) (vp : Value)
    (ht : getTable s store = some t)
    (hnd : pkNodup t.pk t.entries)
    (hw1 : entryWfB e1 = true) (hw2 : entryWfB e2 = true)
    (heq : keyObjEquivB e1 e2 = true)
    (hd1 : "data" ∉ e1.map Prod.fst)
    (hts1 : "timestamp" ∉ e1.map Prod.fst)
    (hd2 : "data" ∉ e2.map Prod.fst)
    (hts2 : "timestamp" ∉ e2.map Prod.fst)
    (hpk : getField (hashObjectProps e2) t.pk = some vp)
    (httl : getExpiration cfg store = some ttl) :
    find cfg (save s store data e1 now none) store
      ⟨none, none, some e2, none, false, none⟩ now none
      = .ok (save s store data e1 now none,
          .one (some (setField (setField (hashObjectProps e1) "data" data)
            "timestamp" (.vInt now)))) := by
  have hsave : save s store data e1 now none
      = setTable s store
          (putEntry t.pk
            (setField (setField (hashObjectProps e1) "data" data)
              "timestamp" (.vInt now)) t.entries) := by
    rw [save, ht]
  set e' := setField (setField (hashObjectProps e1) "data" data)
    "timestamp" (.vInt now) with he'
  set w := hashObjectProps e2 with hw
  set newEntries := putEntry t.pk e' t.entries with hnew
  have hget : getTable (save s store data e1 now none) store
      = some ⟨t.name, t.pk, newEntries⟩ := by
    rw [hsave]
    exact getTable_setTable_self ht newEntries
  have hmatch : whereMatch w e' = true :=
    whereMatch_saved hw1 hw2 heq hd2 hts2
  have hts_e' : getField e' "timestamp" = some (.vInt now) :=
    getField_setField_self _ _ _
  have hnotexp : isExpired cfg store e' now = false := by
    rw [isExpired, hts_e', httl]
    have h0 : 0 ≤ ttl := getExpiration_nonneg httl
    simp only [decide_eq_false_iff_not]
    omega
  have hpk_e' : getField e' t.pk = some vp := by
    have hmem_w : (t.pk, vp) ∈ w := lookupF_mem hpk
    have := hmatch
    rw [whereMatch, List.all_eq_true] at this
    have := this (t.pk, vp) hmem_w
    rw [beq_iff_eq] at this
    exact this
  have hndnew : pkNodup t.pk newEntries := pkNodup_putEntry hnd
  have hall : ∀ x ∈ newEntries.filter (whereMatch w),
      ∀ hx2 : (!isExpired cfg store x now) = true, x = e' := by
    intro x hx _
    rw [List.mem_filter] at hx
    have hxpk : getField x t.pk = some vp := by
      have hmem_w : (t.pk, vp) ∈ w := lookupF_mem hpk
      have := hx.2
      rw [whereMatch, List.all_eq_true] at this
      have := this (t.pk, vp) hmem_w
      rw [beq_iff_eq] at this
      exact this
    exact List.inj_on_of_nodup_map hndnew hx.1
      (putEntry_self_mem t.pk e' t.entries) (by rw [hxpk, hpk_e'])
  have he'_c5 : e' ∈ (newEntries.filter (whereMatch w)).filter
      (fun e => !isExpired cfg store e now) := by
    rw [List.mem_filter, List.mem_filter]
    refine ⟨⟨putEntry_self_mem t.pk e' t.entries, hmatch⟩, ?_⟩
    rw [hnotexp]
    rfl
  have hhead : ((newEntries.filter (whereMatch w)).filter
      (fun e => !isExpired cfg store e now)).head? = some e' := by
    apply head?_eq_of_all he'_c5
    intro x hx
    rw [List.mem_filter] at hx
    exact hall x hx.1 hx.2
  rw [find, hget]
  dsimp only
  rw [← hw]
  rw [show isDesc none = false from rfl]
  rw [if_neg (show ¬(false = true) by simp),
    if_neg (show ¬(false = true) by simp)]
  rw [hhead]

/-! ## Shared example fixtures -/

/-- A configuration resolving every store to a 1000 ms TTL. -/
def exCfg : CacheConfigs := ⟨[("default", "1s")], false⟩

/-- A container with the fingerprint-keyed `indexer/asset` store. -/
def exState : CacheState := ⟨[⟨"indexer/asset", "params", []⟩]⟩

theorem getTable_setTable_other {s : CacheState} {store st2 : String}
    (h : store ≠ st2) (entries : List CacheEntry) :
    getTable (setTable s store entries) st2 = getTable s st2 := by
  rcases s with ⟨stores⟩
  rw [getTable, setTable, getTable]
  induction stores with
  | nil => rfl
  | cons y ys ih =>
    rw [List.map_cons]
    by_cases hy : (y.name == store) = true
    · have hyn : y.name = store := by simpa using hy
      have hy2 : (y.name == st2) = false := by
        simp [hyn]
        exact h
      rw [if_pos hy]
      rw [@List.find?_cons_of_neg _ (fun u : StoreState => u.name == st2) _ _
        (by simpa using hy2)]
      rw [@List.find?_cons_of_neg _ (fun u : StoreState => u.name == st2) y _
        (by simpa using hy2)]
      exact ih
    · rw [if_neg hy]
      by_cases hy2 : (y.name == st2) = true
      · rw [@List.find?_cons_of_pos _ (fun u : StoreState => u.name == st2) y _
          hy2]
        rw [@List.find?_cons_of_pos _ (fun u : StoreState => u.name == st2) y _
          hy2]
      · rw [@List.find?_cons_of_neg _ (fun u : StoreState => u.name == st2) y _
          (by simpa using hy2)]
        rw [@List.find?_cons_of_neg _ (fun u : StoreState => u.name == st2) y _
          (by simpa using hy2)]
        exact ih

theorem find?_clearAll_map {store : String} {t : StoreState} :
    ∀ l : List StoreState,
      (l.find? fun u => u.name == store) = some t →
      ((l.map fun u => (⟨u.name, u.pk, []⟩ : StoreState)).find?
        fun u => u.name == store) = some ⟨t.name, t.pk, []⟩ := by
  intro l
  induction l with
  | nil => intro h; cases h
  | cons y ys ih =>
    intro h
    rw [List.map_cons]
    by_cases hy : (y.name == store) = true
    · rw [@List.find?_cons_of_pos _ (fun u : StoreState => u.name == store)
        y ys hy] at h
      injection h with h'
      subst h'
      exact @List.find?_cons_of_pos _ (fun u : StoreState => u.name == store)
        ⟨y.name, y.pk, []⟩ _ hy
    · rw [@List.find?_cons_of_neg _ (fun u : StoreState => u.name == store)
        y ys hy] at h
      rw [@List.find?_cons_of_neg _ (fun u : StoreState => u.name == store)
        ⟨y.name, y.pk, []⟩ _ hy]
      exact ih h

theorem getTable_clearAll {s : CacheState} {store : String} {t : StoreState}
    (ht : getTable s store = some t) :
    getTable (clearAll s) store = some ⟨t.name, t.pk, []⟩ := by
  rcases s with ⟨stores⟩
  rw [getTable] at ht
  rw [clearAll, getTable]
  exact find?_clearAll_map stores ht

/-! ## The claims -/

/-- C9: for every store name absent from the resolved schema, `find`
returns nothing and `save` is a no-op — for any injected underlying
fault, since `this.db[store]` is checked before any engine call — and
neither raises to the caller.  (The `Store not found` console report is
an external logging effect outside the state model.) -/
theorem c9_unknown_store (cfg : CacheConfigs) (s : CacheState)
    (store : String) (q : CacheQuery) (now : Int) (fault : Option JsError)
    (data : Value) (entry : CacheEntry)
    (h : getTable s store = none) :
    find cfg s store q now fault = .ok (s, .one none)
    ∧ save s store data entry now fault = s := by
  constructor
  · rw [find, h]
  · rw [save, h]

/-- C9 witness: an unregistered store on a concrete container. -/
theorem c9_unknown_store_witness :
    find exCfg exState "nope" ⟨none, none, none, none, false, none⟩ 0 none
      = .ok (exState, .one none)
    ∧ save exState "nope" .vNull [] 0 none = exState :=
  c9_unknown_store exCfg exState "nope" ⟨none, none, none, none, false, none⟩
    0 none .vNull [] (by decide)

/-- C10: `find` performs no writes or deletions — every successful
`find` returns the container state it was given — so an expired entry
it encounters (and hides) stays stored until `prune` deletes it. -/
theorem c10_find_readonly (cfg : CacheConfigs) (s : CacheState) :
    (∀ store q now, ∃ r, find cfg s store q now none = .ok (s, r))
    ∧ (∀ store t (e : CacheEntry) (ts ttl now : Int),
        getTable s store = some t → e ∈ t.entries →
        getField e "timestamp" = some (.vInt ts) →
        getExpiration cfg store = some ttl →
        ts + ttl < now →
        isExpired cfg store e now = true
        ∧ (∀ s2 rep, prune cfg s (some [store]) now = .ok (s2, rep) →
            ∀ t2, getTable s2 store = some t2 → e ∉ t2.entries)) := by
  constructor
  · intro store q now
    rw [find]
    cases hgt : getTable s store with
    | none => exact ⟨.one none, rfl⟩
    | some t =>
      dsimp only
      cases hl : q.limit with
      | none => exact ⟨_, rfl⟩
      | some n => exact ⟨_, rfl⟩
  · intro store t e ts ttl now ht he hts httl hexp
    have hexpired : isExpired cfg store e now = true := by
      rw [isExpired, hts, httl]
      dsimp only
      simp only [decide_eq_true_eq]
      omega
    refine ⟨hexpired, ?_⟩
    intro s2 rep hpr t2 ht2 hmem
    rw [prune] at hpr
    try dsimp only at hpr
    rw [pruneLoop, ht] at hpr
    dsimp only at hpr
    rw [pruneLoop] at hpr
    injection hpr with hpr'
    injection hpr' with hs2 hrep
    rw [← hs2] at ht2
    rw [getTable_setTable_self ht] at ht2
    injection ht2 with ht2'
    rw [← ht2'] at hmem
    rw [List.mem_filter] at hmem
    have hP : expiredB cfg store now e = true := by
      rw [expiredB, hts, httl]
      dsimp only
      simp only [decide_eq_true_eq]
      omega
    rw [hP] at hmem
    exact absurd hmem.2 (by decide)

/-- Fixture for the C10 witness: one expired entry. -/
def c10St : CacheState :=
  ⟨[⟨"indexer/asset", "params",
      [[("params", .vStr "q"), ("timestamp", .vInt 0)]]⟩]⟩

/-- C10 witness: a concrete expired entry survives `find` and is
removed by `prune`. -/
theorem c10_find_readonly_witness :
    (∃ r, find exCfg c10St "indexer/asset"
        ⟨none, none, none, none, false, none⟩ 5000 none
      = .ok (c10St, r))
    ∧ isExpired exCfg "indexer/asset"
        [("params", .vStr "q"), ("timestamp", .vInt 0)] 5000 = true := by
  constructor
  · exact (c10_find_readonly exCfg c10St).1 "indexer/asset"
      ⟨none, none, none, none, false, none⟩ 5000
  · exact ((c10_find_readonly exCfg c10St).2 "indexer/asset"
      ⟨"indexer/asset", "params",
        [[("params", .vStr "q"), ("timestamp", .vInt 0)]]⟩
      [("params", .vStr "q"), ("timestamp", .vInt 0)] 0 1000 5000
      (by decide) (by decide) (by decide) (by decide) (by decide)).1

/-- C4: an entry is expired iff `timestamp + resolveTTL(store) < now`;
at TTL = 1000 ms an entry written 999 ms ago is fresh and one written
1001 ms ago is expired; `find` without `includeExpired` omits an
expired entry while `includeExpired: true` returns it. -/
theorem c4_expiration_boundary (cfg : CacheConfigs) (store : String)
    (now ts ttl : Int) (e : CacheEntry) (s : CacheState) (nm pk : String)
    (hts : getField e "timestamp" = some (.vInt ts))
    (httl : getExpiration cfg store = some ttl) :
    (isExpired cfg store e now = true ↔ ts + ttl < now)
    ∧ (ttl = 1000 → ts = now - 999 → isExpired cfg store e now = false)
    ∧ (ttl = 1000 → ts = now - 1001 → isExpired cfg store e now = true)
    ∧ (getTable s store = some ⟨nm, pk, [e]⟩ →
        isExpired cfg store e now = true →
        find cfg s store ⟨none, none, none, none, false, none⟩ now none
          = .ok (s, .one none)
        ∧ find cfg s store ⟨none, none, none, none, true, none⟩ now none
          = .ok (s, .one (some e))) := by
  have hiff : isExpired cfg store e now = true ↔ ts + ttl < now := by
    rw [isExpired, hts, httl]
    dsimp only
    simp only [decide_eq_true_eq]
  refine ⟨hiff, ?_, ?_, ?_⟩
  · intro h1 h2
    rw [← Bool.not_eq_true]
    rw [hiff]
    omega
  · intro h1 h2
    rw [hiff]
    omega
  · intro hgt hexp
    constructor
    · rw [find, hgt]
      dsimp only
      rw [show isDesc none = false from rfl]
      rw [if_neg (show ¬(false = true) by simp),
        if_neg (show ¬(false = true) by simp)]
      rw [show List.filter (fun x => !isExpired cfg store x now) [e] = []
        by simp [List.filter_cons, hexp]]
      rfl
    · rw [find, hgt]
      dsimp only
      rw [show isDesc none = false from rfl]
      rw [if_neg (show ¬(false = true) by simp),
        if_pos (show (true = true) from rfl)]
      rfl

/-- C4 witness: the 999/1001 ms boundary at `now = 5000`, with the
`find` visibility of the expired entry, on concrete data. -/
theorem c4_expiration_boundary_witness :
    (isExpired exCfg "indexer/asset"
        [("params", .vStr "q"), ("timestamp", .vInt 4001)] 5000 = false)
    ∧ (isExpired exCfg "indexer/asset"
        [("params", .vStr "q"), ("timestamp", .vInt 3999)] 5000 = true)
    ∧ (find exCfg
        ⟨[⟨"indexer/asset", "params",
            [[("params", .vStr "q"), ("timestamp", .vInt 3999)]]⟩]⟩
        "indexer/asset" ⟨none, none, none, none, false, none⟩ 5000 none
        = .ok (⟨[⟨"indexer/asset", "params",
            [[("params", .vStr "q"), ("timestamp", .vInt 3999)]]⟩]⟩,
          .one none))
    ∧ (find exCfg
        ⟨[⟨"indexer/asset", "params",
            [[("params", .vStr "q"), ("timestamp", .vInt 3999)]]⟩]⟩
        "indexer/asset" ⟨none, none, none, none, true, none⟩ 5000 none
        = .ok (⟨[⟨"indexer/asset", "params",
            [[("params", .vStr "q"), ("timestamp", .vInt 3999)]]⟩]⟩,
          .one (some [("params", .vStr "q"), ("timestamp", .vInt 3999)]))) := by
  have h1 := (c4_expiration_boundary exCfg "indexer/asset" 5000 4001 1000
    [("params", .vStr "q"), ("timestamp", .vInt 4001)]
    ⟨[⟨"indexer/asset", "params",
        [[("params", .vStr "q"), ("timestamp", .vInt 4001)]]⟩]⟩
    "indexer/asset" "params" (by decide) (by decide)).2.1 rfl (by decide)
  have h2 := c4_expiration_boundary exCfg "indexer/asset" 5000 3999 1000
    [("params", .vStr "q"), ("timestamp", .vInt 3999)]
    ⟨[⟨"indexer/asset", "params",
        [[("params", .vStr "q"), ("timestamp", .vInt 3999)]]⟩]⟩
    "indexer/asset" "params" (by decide) (by decide)
  have h3 := h2.2.2.2 (by decide) (h2.2.2.1 rfl (by decide))
  exact ⟨h1, h2.2.2.1 rfl (by decide), h3.1, h3.2⟩

/-- C2 counterexample: `prune` on an unregistered store name does raise
a hard failure to its caller — `this.db[store]` is `undefined` and
`table.filter` throws a `TypeError`; there is no store check and no
try/catch in `prune` (cache.ts 248-262). -/
theorem c2_counterexample :
    prune exCfg exState (some ["nope"]) 0 = .error ⟨"TypeError", none⟩ := by
  decide

/-- C2 (amended): `find` and `save` never raise for an unknown store
name (logged, return nothing / no-op, before any engine call); `save`
catches every underlying write failure — a corruption signal resets the
container, any other write error is dropped with no state change; but
`prune` raises a `TypeError` when a target store name is unregistered,
and `find` has no try/catch, so an underlying read failure propagates
to the caller. -/
theorem c2_error_containment (cfg : CacheConfigs) (s : CacheState)
    (store : String) (q : CacheQuery) (now : Int) (data : Value)
    (entry : CacheEntry) (f : JsError) (rest : List String)
    (t : StoreState) :
    (getTable s store = none →
      (∀ fault, find cfg s store q now fault = .ok (s, .one none))
      ∧ (∀ fault, save s store data entry now fault = s)
      ∧ prune cfg s (some (store :: rest)) now
          = .error ⟨"TypeError", none⟩)
    ∧ (getTable s store = some t →
      save s store data entry now (some f) = handleError f s
      ∧ (isUpgradeSignal f = false →
          save s store data entry now (some f) = s)
      ∧ find cfg s store q now (some f) = .error f) := by
  constructor
  · intro h
    refine ⟨fun fault => ?_, fun fault => ?_, ?_⟩
    · rw [find, h]
    · rw [save, h]
    · rw [prune]
      try dsimp only
      rw [pruneLoop, h]
  · intro h
    refine ⟨?_, ?_, ?_⟩
    · rw [save, h]
    · intro hf
      rw [save, h]
      dsimp only
      rw [handleError, if_neg (by rw [hf]; simp)]
    · rw [find, h]

/-- C2 witness: each branch of the amended claim at concrete inputs —
unknown store for `find`/`save`/`prune`, a dropped non-corruption write
failure, and a propagated read failure. -/
theorem c2_error_containment_witness :
    (find exCfg exState "nope" ⟨none, none, none, none, false, none⟩ 0 none
        = .ok (exState, .one none)
      ∧ save exState "nope" .vNull [] 0 none = exState
      ∧ prune exCfg exState (some ["nope", "indexer/asset"]) 0
          = .error ⟨"TypeError", none⟩)
    ∧ (save exState "indexer/asset" .vNull [] 0
          (some ⟨"QuotaExceededError", none⟩) = exState
      ∧ find exCfg exState "indexer/asset"
          ⟨none, none, none, none, false, none⟩ 0
          (some ⟨"AbortError", none⟩) = .error ⟨"AbortError", none⟩) := by
  have h1 := (c2_error_containment exCfg exState "nope"
    ⟨none, none, none, none, false, none⟩ 0 .vNull [] ⟨"AbortError", none⟩
    ["indexer/asset"] ⟨"indexer/asset", "params", []⟩).1 (by decide)
  have h2 := (c2_error_containment exCfg exState "indexer/asset"
    ⟨none, none, none, none, false, none⟩ 0 .vNull []
    ⟨"QuotaExceededError", none⟩ [] ⟨"indexer/asset", "params", []⟩).2
    (by decide)
  have h3 := (c2_error_containment exCfg exState "indexer/asset"
    ⟨none, none, none, none, false, none⟩ 0 .vNull []
    ⟨"AbortError", none⟩ [] ⟨"indexer/asset", "params", []⟩).2
    (by decide)
  exact ⟨⟨h1.1 none, h1.2.1 none, h1.2.2⟩,
    ⟨h2.2.1 (by decide), h3.2.2⟩⟩

/-- C6 counterexample: a read failure carrying the schema-corruption
signal does not trigger the destructive reset — `find` has no
try/catch (cache.ts 130-158; only `save`'s catch routes errors to
`handleError`), so the rejection propagates to the caller instead of
resetting the container and succeeding afterwards. -/
theorem c6_counterexample :
    find exCfg exState "indexer/asset" ⟨none, none, none, none, false, none⟩
      0 (some ⟨"UpgradeError", none⟩) = .error ⟨"UpgradeError", none⟩ := by
  decide

/-- C6 (amended): only a write failure (during `save`) carrying the
schema/version corruption signal triggers recovery; the engine then
destroys the entire container for its namespace — every registered
store, unconditionally, no selective recovery — keeping the registered
schema, and a subsequent save/find round-trip on the re-initialized
empty container succeeds.  A read failure carrying the same signal is
not caught and propagates (see the counterexample). -/
theorem c6_corruption_reset (cfg : CacheConfigs) (s : CacheState)
    (store : String) (t : StoreState) (data data2 : Value)
    (entry : CacheEntry) (now now2 ttl : Int) (f : JsError) (q : String)
    (ht : getTable s store = some t)
    (hf : isUpgradeSignal f = true)
    (hpk : t.pk = "params")
    (httl : getExpiration cfg store = some ttl) :
    save s store data entry now (some f) = clearAll s
    ∧ (∀ t0 ∈ (clearAll s).stores, t0.entries = [])
    ∧ ((clearAll s).stores.map fun t0 => (t0.name, t0.pk))
        = (s.stores.map fun t0 => (t0.name, t0.pk))
    ∧ find cfg
        (save (clearAll s) store data2 [("params", .vStr q)] now2 none)
        store ⟨none, none, some [("params", .vStr q)], none, false, none⟩
        now2 none
      = .ok (save (clearAll s) store data2 [("params", .vStr q)] now2 none,
          .one (some (setField
            (setField (hashObjectProps [("params", .vStr q)]) "data" data2)
            "timestamp" (.vInt now2)))) := by
  refine ⟨?_, ?_, ?_, ?_⟩
  · rw [save, ht]
    dsimp only
    rw [handleError, if_pos hf]
  · intro t0 ht0
    rw [clearAll] at ht0
    rcases List.mem_map.mp ht0 with ⟨u, _, hu⟩
    rw [← hu]
  · rw [clearAll, List.map_map]
    rfl
  · have ht' : getTable (clearAll s) store = some ⟨t.name, "params", []⟩ := by
      rw [getTable_clearAll ht, hpk]
    exact find_after_save_general cfg (clearAll s) store
      ⟨t.name, "params", []⟩ data2 [("params", .vStr q)]
      [("params", .vStr q)] now2 ttl (.vStr q) ht'
      (by simp [pkNodup])
      rfl rfl
      (by simp [keyObjEquivB, keyFieldEquivB])
      (by simp) (by simp) (by simp) (by simp)
      rfl httl

/-- C6 witness: a corruption-signalled write resets a concrete
container; the subsequent round-trip succeeds on the cleared store. -/
theorem c6_corruption_reset_witness :
    save c10St "indexer/asset" .vNull [] 0
        (some ⟨"AbortError", some "UpgradeError"⟩) = clearAll c10St
    ∧ find exCfg
        (save (clearAll c10St) "indexer/asset" (.vStr "fresh")
          [("params", .vStr "k")] 7 none)
        "indexer/asset"
        ⟨none, none, some [("params", .vStr "k")], none, false, none⟩ 7 none
      = .ok (save (clearAll c10St) "indexer/asset" (.vStr "fresh")
            [("params", .vStr "k")] 7 none,
          .one (some (setField
            (setField (hashObjectProps [("params", .vStr "k")]) "data"
              (.vStr "fresh")) "timestamp" (.vInt 7)))) := by
  have h := c6_corruption_reset exCfg c10St "indexer/asset"
    ⟨"indexer/asset", "params",
      [[("params", .vStr "q"), ("timestamp", .vInt 0)]]⟩
    .vNull (.vStr "fresh") [] 0 7 1000
    ⟨"AbortError", some "UpgradeError"⟩ "k"
    (by decide) (by decide) rfl (by decide)
  exact ⟨h.1, h.2.2.2⟩

theorem putEntry_countP {pk : String} {e : CacheEntry} :
    ∀ {l : List CacheEntry}, pkNodup pk l →
      ((putEntry pk e l).countP
        fun x => getField x pk == getField e pk) = 1 := by
  intro l
  induction l with
  | nil =>
    intro _
    rw [putEntry]
    simp [List.countP_cons]
  | cons y ys ih =>
    intro hnd
    have hnd2 : getField y pk ∉ ys.map (fun x => getField x pk)
        ∧ pkNodup pk ys := by
      rw [pkNodup] at hnd
      simpa [pkNodup] using hnd
    rw [putEntry]
    by_cases hy : (getField y pk == getField e pk) = true
    · rw [if_pos hy]
      rw [List.countP_cons]
      have hzero : (ys.countP fun x => getField x pk == getField e pk) = 0 := by
        rw [List.countP_eq_zero]
        intro x hx hpx
        apply hnd2.1
        rw [beq_iff_eq] at hy hpx
        rw [hy, ← hpx]
        exact List.mem_map_of_mem _ hx
      rw [hzero]
      simp
    · rw [if_neg hy]
      rw [List.countP_cons]
      rw [show (getField y pk == getField e pk) = false by simpa using hy]
      rw [ih hnd2.2]
      simp

/-- C5: within a store the normalized key fields identify an entry
uniquely — saving twice with the same key object leaves exactly one
entry for that primary-key value, holding the latest `data` and the
latest write timestamp, and the persisted entry's `timestamp` is
`Date.now()` of the write, overriding any caller-supplied `timestamp`
key field (the object spread in cache.ts 167-171 puts `timestamp` last). -/
theorem c5_overwrite_semantics (s : CacheState) (store : String)
    (t : StoreState) (data1 data2 : Value) (entry : CacheEntry)
    (now1 now2 : Int)
    (ht : getTable s store = some t)
    (hnd : pkNodup t.pk t.entries)
    (hpk_d : t.pk ≠ "data") (hpk_ts : t.pk ≠ "timestamp") :
    ∃ t2, getTable (save (save s store data1 entry now1 none) store data2
        entry now2 none) store = some t2
    ∧ (t2.entries.countP fun x => getField x t.pk
        == getField (setField (setField (hashObjectProps entry) "data"
            data2) "timestamp" (.vInt now2)) t.pk) = 1
    ∧ (setField (setField (hashObjectProps entry) "data" data2)
        "timestamp" (.vInt now2)) ∈ t2.entries
    ∧ getField (setField (setField (hashObjectProps entry) "data" data2)
        "timestamp" (.vInt now2)) "data" = some data2
    ∧ getField (setField (setField (hashObjectProps entry) "data" data2)
        "timestamp" (.vInt now2)) "timestamp" = some (.vInt now2)
    ∧ pkNodup t.pk t2.entries := by
  set e1' := setField (setField (hashObjectProps entry) "data" data1)
    "timestamp" (.vInt now1) with he1
  set e2' := setField (setField (hashObjectProps entry) "data" data2)
    "timestamp" (.vInt now2) with he2
  have hs1 : save s store data1 entry now1 none
      = setTable s store (putEntry t.pk e1' t.entries) := by
    rw [save, ht]
  have hget1 : getTable (save s store data1 entry now1 none) store
      = some ⟨t.name, t.pk, putEntry t.pk e1' t.entries⟩ := by
    rw [hs1]
    exact getTable_setTable_self ht _
  have hnd1 : pkNodup t.pk (putEntry t.pk e1' t.entries) :=
    pkNodup_putEntry hnd
  have hs2 : save (save s store data1 entry now1 none) store data2 entry
      now2 none
      = setTable (save s store data1 entry now1 none) store
          (putEntry t.pk e2' (putEntry t.pk e1' t.entries)) := by
    rw [save, hget1]
  refine ⟨⟨t.name, t.pk, putEntry t.pk e2' (putEntry t.pk e1' t.entries)⟩,
    ?_, ?_, ?_, ?_, ?_, ?_⟩
  · rw [hs2]
    exact getTable_setTable_self hget1 _
  · exact putEntry_countP hnd1
  · exact putEntry_self_mem _ _ _
  · rw [getField_setField_ne _ _ _ _ (by simp)]
    exact getField_setField_self _ _ _
  · exact getField_setField_self _ _ _
  · exact pkNodup_putEntry hnd1

/-- C5 witness: two writes with the same key object (which even carries
its own `timestamp` field) leave one entry with the second write's data
and clock value. -/
theorem c5_overwrite_semantics_witness :
    ∃ t2, getTable (save (save exState "indexer/asset" (.vStr "v1")
        [("params", .vStr "k"), ("timestamp", .vInt 99)] 1 none)
        "indexer/asset" (.vStr "v2")
        [("params", .vStr "k"), ("timestamp", .vInt 99)] 2 none)
        "indexer/asset" = some t2
    ∧ (t2.entries.countP fun x => getField x "params"
        == getField (setField (setField (hashObjectProps
            [("params", .vStr "k"), ("timestamp", .vInt 99)]) "data"
            (.vStr "v2")) "timestamp" (.vInt 2)) "params") = 1
    ∧ (setField (setField (hashObjectProps
        [("params", .vStr "k"), ("timestamp", .vInt 99)]) "data"
        (.vStr "v2")) "timestamp" (.vInt 2)) ∈ t2.entries
    ∧ getField (setField (setField (hashObjectProps
        [("params", .vStr "k"), ("timestamp", .vInt 99)]) "data"
        (.vStr "v2")) "timestamp" (.vInt 2)) "data" = some (.vStr "v2")
    ∧ getField (setField (setField (hashObjectProps
        [("params", .vStr "k"), ("timestamp", .vInt 99)]) "data"
        (.vStr "v2")) "timestamp" (.vInt 2)) "timestamp"
        = some (.vInt 2)
    ∧ pkNodup "params" t2.entries :=
  c5_overwrite_semantics exState "indexer/asset"
    ⟨"indexer/asset", "params", []⟩ (.vStr "v1") (.vStr "v2")
    [("params", .vStr "k"), ("timestamp", .vInt 99)] 1 2
    (by decide) (by simp [pkNodup]) (by decide) (by decide)

/-- C7: key normalization fingerprints every top-level object-valued
field, passes scalars and arrays through unchanged, and drops
null/undefined fields, so the normalized key object holds no null or
absent values. -/
theorem c7_key_normalization (e : CacheEntry)
    (hnd : (e.map Prod.fst).Nodup) :
    (∀ (k : String) (fs : FieldList), (k, Value.vObj fs) ∈ e →
        (k, .vStr (Value.objHash (.vObj fs))) ∈ hashObjectProps e)
    ∧ (∀ k v, (k, v) ∈ e → jsObjectNotArray v = false → v ≠ .vUndef →
        (k, v) ∈ hashObjectProps e)
    ∧ (∀ k v, (k, v) ∈ e → v = .vNull ∨ v = .vUndef →
        ∀ w, (k, w) ∉ hashObjectProps e)
    ∧ (∀ k v, (k, v) ∈ hashObjectProps e → v ≠ .vNull ∧ v ≠ .vUndef) := by
  refine ⟨?_, ?_, ?_, ?_⟩
  · intro k fs hmem
    have := mem_hashObjectProps_of hmem (by simp) (by simp)
    rw [show normField (.vObj fs) = .vStr (Value.objHash (.vObj fs))
      from rfl] at this
    exact this
  · intro k v hmem hjs hu
    have hn : v ≠ Value.vNull := by
      intro h
      rw [h] at hjs
      cases hjs
    have := mem_hashObjectProps_of hmem hn hu
    rw [show normField v = v by rw [normField, if_neg (by rw [hjs]; simp)]]
      at this
    exact this
  · intro k v hmem hnu w hw
    obtain ⟨u, hue, hun, huu, _⟩ := mem_hashObjectProps_elim hw
    have : u = v := by
      have := List.inj_on_of_nodup_map hnd hue hmem rfl
      exact congrArg Prod.snd this
    rcases hnu with h | h
    · exact hun (this.trans h)
    · exact huu (this.trans h)
  · intro k v hmem
    obtain ⟨u, _, hun, huu, hv⟩ := mem_hashObjectProps_elim hmem
    rw [hv, normField]
    by_cases hjs : jsObjectNotArray u = true
    · rw [if_pos hjs]
      exact ⟨by simp, by simp⟩
    · rw [if_neg hjs]
      exact ⟨hun, huu⟩

/-- C7 witness: a key object with a scalar, a nested object, a null,
an array and an undefined field, normalized. -/
theorem c7_key_normalization_witness :
    ("b", .vStr (Value.objHash (.vObj (.cons "x" (.vInt 2) .nil))))
      ∈ hashObjectProps [("a", Value.vInt 1),
        ("b", .vObj (.cons "x" (.vInt 2) .nil)), ("c", Value.vNull),
        ("d", .vArr (.cons (.vInt 3) .nil)), ("u", Value.vUndef)]
    ∧ ("a", Value.vInt 1) ∈ hashObjectProps [("a", Value.vInt 1),
        ("b", .vObj (.cons "x" (.vInt 2) .nil)), ("c", Value.vNull),
        ("d", .vArr (.cons (.vInt 3) .nil)), ("u", Value.vUndef)]
    ∧ ("c", Value.vNull) ∉ hashObjectProps [("a", Value.vInt 1),
        ("b", .vObj (.cons "x" (.vInt 2) .nil)), ("c", Value.vNull),
        ("d", .vArr (.cons (.vInt 3) .nil)), ("u", Value.vUndef)] := by
  have h := c7_key_normalization [("a", Value.vInt 1),
    ("b", .vObj (.cons "x" (.vInt 2) .nil)), ("c", Value.vNull),
    ("d", .vArr (.cons (.vInt 3) .nil)), ("u", Value.vUndef)] (by decide)
  exact ⟨h.1 "b" (.cons "x" (.vInt 2) .nil) (by decide),
    h.2.1 "a" (.vInt 1) (by decide) (by decide) (by decide),
    h.2.2.1 "c" .vNull (by decide) (Or.inl rfl) .vNull⟩

/-- Structural equality of two key objects (field order irrelevant at
every depth for objects, order-sensitive for arrays), the relation the
spec's determinism claim quantifies over. -/
def entryStructEqB (e1 e2 : CacheEntry) : Bool :=
  Value.structEqB (.vObj (FieldList.ofList e1)) (.vObj (FieldList.ofList e2))

/-- A store keyed on an array-valued field. -/
def c1State : CacheState := ⟨[⟨"custom", "tags", []⟩]⟩

/-- Key object whose `tags` field is an array holding one object. -/
def c1KeyA : CacheEntry :=
  [("tags", Value.vArr (.cons
    (.vObj (.cons "a" (.vInt 1) (.cons "b" (.vInt 2) .nil))) .nil))]

/-- The same key object with the nested object's fields reordered. -/
def c1KeyB : CacheEntry :=
  [("tags", Value.vArr (.cons
    (.vObj (.cons "b" (.vInt 2) (.cons "a" (.vInt 1) .nil))) .nil))]

/-- C1 counterexample: two structurally equal key objects (they even
share the same `objHash` fingerprint) whose `find` results differ,
because `hashObjectProps` (cache.ts 190-194) leaves array-valued fields
unhashed and the `where` comparison on the raw arrays is then sensitive
to the field order of objects nested inside them: the entry saved under
the first key is not found under the second. -/
theorem c1_counterexample :
    entryStructEqB c1KeyA c1KeyB = true
    ∧ entryWfB c1KeyA = true ∧ entryWfB c1KeyB = true
    ∧ Value.objHash (.vObj (FieldList.ofList c1KeyA))
        = Value.objHash (.vObj (FieldList.ofList c1KeyB))
    ∧ find exCfg (save c1State "custom" (.vStr "d") c1KeyA 0 none)
        "custom" ⟨none, none, some c1KeyB, none, false, none⟩ 0 none
        = .ok (save c1State "custom" (.vStr "d") c1KeyA 0 none,
            .one none) := by
  decide

/-- C1 (amended): key determinism holds for key objects related by
`keyObjEquivB` — the same top-level fields in any order, object-valued
fields compared structurally, every other field (scalars and arrays)
compared by strict equality: saving under one key object and finding
with the other returns exactly the saved entry. -/
theorem c1_key_determinism (cfg : CacheConfigs) (s : CacheState)
    (store : String) (t : StoreState) (data : Value) (e1 e2 : CacheEntry)
    (now ttl : Int) (vp : Value)
    (ht : getTable s store = some t)
    (hnd : pkNodup t.pk t.entries)
    (hw1 : entryWfB e1 = true) (hw2 : entryWfB e2 = true)
    (heq : keyObjEquivB e1 e2 = true)
    (hd1 : "data" ∉ e1.map Prod.fst)
    (hts1 : "timestamp" ∉ e1.map Prod.fst)
    (hd2 : "data" ∉ e2.map Prod.fst)
    (hts2 : "timestamp" ∉ e2.map Prod.fst)
    (hpk : getField (hashObjectProps e2) t.pk = some vp)
    (httl : getExpiration cfg store = some ttl) :
    find cfg (save s store data e1 now none) store
      ⟨none, none, some e2, none, false, none⟩ now none
      = .ok (save s store data e1 now none,
          .one (some (setField (setField (hashObjectProps e1) "data" data)
            "timestamp" (.vInt now)))) :=
  find_after_save_general cfg s store t data e1 e2 now ttl vp ht hnd
    hw1 hw2 heq hd1 hts1 hd2 hts2 hpk httl

/-- C1 witness: a `params` key object saved with its fields in one order
and found with them in the other order. -/
theorem c1_key_determinism_witness :
    find exCfg (save exState "indexer/asset" (.vStr "payload")
        [("params", Value.vObj (.cons "a" (.vInt 1)
          (.cons "b" (.vInt 2) .nil)))] 5 none)
      "indexer/asset"
      ⟨none, none, some [("params", Value.vObj (.cons "b" (.vInt 2)
        (.cons "a" (.vInt 1) .nil)))], none, false, none⟩ 5 none
      = .ok (save exState "indexer/asset" (.vStr "payload")
          [("params", Value.vObj (.cons "a" (.vInt 1)
            (.cons "b" (.vInt 2) .nil)))] 5 none,
        .one (some (setField (setField (hashObjectProps
          [("params", Value.vObj (.cons "a" (.vInt 1)
            (.cons "b" (.vInt 2) .nil)))]) "data" (.vStr "payload"))
          "timestamp" (.vInt 5)))) :=
  c1_key_determinism exCfg exState "indexer/asset"
    ⟨"indexer/asset", "params", []⟩ (.vStr "payload")
    [("params", Value.vObj (.cons "a" (.vInt 1)
      (.cons "b" (.vInt 2) .nil)))]
    [("params", Value.vObj (.cons "b" (.vInt 2)
      (.cons "a" (.vInt 1) .nil)))]
    5 1000
    (.vStr (Value.objHash (.vObj (.cons "b" (.vInt 2)
      (.cons "a" (.vInt 1) .nil)))))
    (by decide) (by simp [pkNodup]) (by decide) (by decide) (by decide)
    (by decide) (by decide) (by decide) (by decide) (by decide)
    (by decide)

/-- Modelled from the spec (§4.6, C3): the state after a sweep — each
target store keeps exactly the entries the deletion predicate spares,
every other store is untouched. -/
def pruneResultState (cfg : CacheConfigs) (now : Int) (s : CacheState)
    (l : List String) : CacheState :=
  ⟨s.stores.map fun t =>
    if t.name ∈ l then
      ⟨t.name, t.pk, t.entries.filter fun e => !expiredB cfg t.name now e⟩
    else t⟩

/-- Modelled from the spec (§4.6, C3): the report of a sweep — per
target store, in order, the number of entries the deletion predicate
removes (computed against the pre-sweep state), with zero-removal
stores omitted. -/
def pruneReport (cfg : CacheConfigs) (now : Int) (s : CacheState) :
    List String → List (String × Nat)
  | [] => []
  | st :: rest =>
    let n := match getTable s st with
      | some t => (t.entries.filter (expiredB cfg st now)).length
      | none => 0
    if n == 0 then pruneReport cfg now s rest
    else (st, n) :: pruneReport cfg now s rest

theorem pruneReport_nil_eq (cfg : CacheConfigs) (now : Int)
    (s : CacheState) : pruneReport cfg now s [] = [] := rfl

theorem pruneReport_cons_eq (cfg : CacheConfigs) (now : Int)
    (s : CacheState) (st : String) (rest : List String) :
    pruneReport cfg now s (st :: rest)
      = (let n := match getTable s st with
          | some t => (t.entries.filter (expiredB cfg st now)).length
          | none => 0
         if n == 0 then pruneReport cfg now s rest
         else (st, n) :: pruneReport cfg now s rest) := rfl

theorem setTable_names (s : CacheState) (store : String)
    (entries : List CacheEntry) :
    ((setTable s store entries).stores.map fun u => u.name)
      = s.stores.map fun u => u.name := by
  rw [setTable]
  rw [List.map_map]
  apply List.map_congr_left
  intro u _
  by_cases h : (u.name == store) = true <;> simp [Function.comp, h]

theorem pruneResultState_nil (cfg : CacheConfigs) (now : Int)
    (s : CacheState) : pruneResultState cfg now s [] = s := by
  rcases s with ⟨stores⟩
  rw [pruneResultState]
  simp

theorem getTable_pruneResultState {cfg : CacheConfigs} {now : Int}
    {s : CacheState} {l : List String} {st : String} {t : StoreState}
    (ht : getTable s st = some t) :
    getTable (pruneResultState cfg now s l) st
      = some (if st ∈ l then
          ⟨t.name, t.pk, t.entries.filter fun e => !expiredB cfg st now e⟩
        else t) := by
  rcases s with ⟨stores⟩
  rw [getTable] at ht
  have htn : t.name = st := by simpa using List.find?_some ht
  rw [pruneResultState, getTable]
  rw [List.find?_map]
  have hp : ((fun u : StoreState => u.name == st) ∘ fun u : StoreState =>
      if u.name ∈ l then
        ⟨u.name, u.pk, u.entries.filter fun e => !expiredB cfg u.name now e⟩
      else u)
      = fun u : StoreState => u.name == st := by
    funext u
    by_cases h : u.name ∈ l <;> simp [Function.comp, h]
  rw [hp, ht]
  dsimp only [Option.map]
  rw [htn]

theorem pruneResultState_setTable {cfg : CacheConfigs} {now : Int}
    {s : CacheState} {st : String} {t : StoreState} {rest : List String}
    (hnames : (s.stores.map fun u => u.name).Nodup)
    (ht : getTable s st = some t) (hni : st ∉ rest) :
    pruneResultState cfg now
      (setTable s st (t.entries.filter fun e => !expiredB cfg st now e))
      rest
      = pruneResultState cfg now s (st :: rest) := by
  have htm : t ∈ s.stores := List.mem_of_find?_eq_some ht
  have htn : t.name = st := by simpa using List.find?_some ht
  rcases s with ⟨stores⟩
  rw [pruneResultState, pruneResultState, setTable]
  congr 1
  rw [List.map_map]
  apply List.map_congr_left
  intro u hu
  by_cases h : u.name = st
  · have hut : u = t := by
      apply List.inj_on_of_nodup_map hnames hu htm
      rw [h, htn]
    subst hut
    simp [Function.comp, htn, hni]
  · simp [Function.comp, h, List.mem_cons]

theorem pruneReport_congr {cfg : CacheConfigs} {now : Int}
    {s1 s2 : CacheState} :
    ∀ {l : List String}, (∀ st ∈ l, getTable s1 st = getTable s2 st) →
      pruneReport cfg now s1 l = pruneReport cfg now s2 l := by
  intro l
  induction l with
  | nil => intro _; rfl
  | cons st rest ih =>
    intro h
    rw [pruneReport_cons_eq, pruneReport_cons_eq]
    rw [h st (List.mem_cons_self _ _)]
    rw [ih fun st2 h2 => h st2 (List.mem_cons_of_mem _ h2)]

theorem pruneReport_mem_pos (cfg : CacheConfigs) (now : Int)
    (s : CacheState) :
    ∀ (l : List String) (st : String) (n : Nat),
      (st, n) ∈ pruneReport cfg now s l → n ≠ 0 := by
  intro l
  induction l with
  | nil =>
    intro st n h
    rw [pruneReport_nil_eq] at h
    cases h
  | cons st0 rest ih =>
    intro st n h
    rw [pruneReport_cons_eq] at h
    dsimp only at h
    generalize hm : (match getTable s st0 with
      | some t => (t.entries.filter (expiredB cfg st0 now)).length
      | none => 0) = m at h
    by_cases h0 : (m == 0) = true
    · rw [if_pos h0] at h
      exact ih st n h
    · rw [if_neg h0] at h
      rcases List.mem_cons.mp h with he | htl
      · have hn : n = m := by
          injection he with h1 h2
        rw [hn]
        simpa using h0
      · exact ih st n htl

theorem pruneLoop_spec (cfg : CacheConfigs) (now : Int) :
    ∀ (l : List String) (s : CacheState),
      (s.stores.map fun u => u.name).Nodup → l.Nodup →
      (∀ st ∈ l, ∃ t, getTable s st = some t) →
      pruneLoop cfg s now l
        = .ok (pruneResultState cfg now s l, pruneReport cfg now s l) := by
  intro l
  induction l with
  | nil =>
    intro s _ _ _
    rw [pruneLoop, pruneReport_nil_eq, pruneResultState_nil]
  | cons st rest ih =>
    intro s hn hndl hreg
    obtain ⟨t, ht⟩ := hreg st (List.mem_cons_self _ _)
    have hni : st ∉ rest := (List.nodup_cons.mp hndl).1
    have hrest : rest.Nodup := (List.nodup_cons.mp hndl).2
    rw [pruneLoop, ht]
    dsimp only
    have hn1 : (((setTable s st (t.entries.filter fun e =>
        !expiredB cfg st now e)).stores.map fun u => u.name)).Nodup := by
      rw [setTable_names]
      exact hn
    have hreg1 : ∀ st2 ∈ rest, ∃ t2, getTable (setTable s st
        (t.entries.filter fun e => !expiredB cfg st now e)) st2
          = some t2 := by
      intro st2 h2
      have hne : st ≠ st2 := fun hEq => hni (by rw [hEq]; exact h2)
      rw [getTable_setTable_other hne]
      exact hreg st2 (List.mem_cons_of_mem _ h2)
    rw [ih _ hn1 hrest hreg1]
    dsimp only
    rw [pruneResultState_setTable hn ht hni]
    have hrepc : pruneReport cfg now (setTable s st (t.entries.filter
        fun e => !expiredB cfg st now e)) rest
        = pruneReport cfg now s rest := by
      apply pruneReport_congr
      intro st2 h2
      exact getTable_setTable_other (fun hEq => hni (by rw [hEq]; exact h2)) _
    rw [hrepc]
    rw [pruneReport_cons_eq, ht]

/-- C3: for explicitly targeted, registered stores, `prune` succeeds
and deletes exactly the entries whose timestamp is strictly below
`now - resolveTTL(store)` — each swept store retains precisely the
entries the deletion predicate spares, every remaining stamped entry
of a swept store satisfies `timestamp >= now - TTL(store)`, and the
returned mapping lists per store the number of entries removed, with
zero-removal stores omitted. -/
theorem c3_prune_correctness (cfg : CacheConfigs) (s : CacheState)
    (now : Int) (l : List String)
    (hnames : (s.stores.map fun u => u.name).Nodup)
    (hnd : l.Nodup)
    (hreg : ∀ st ∈ l, ∃ t, getTable s st = some t) :
    prune cfg s (some l) now
      = .ok (pruneResultState cfg now s l, pruneReport cfg now s l)
    ∧ (∀ st t, st ∈ l → getTable s st = some t →
        getTable (pruneResultState cfg now s l) st
          = some ⟨t.name, t.pk,
              t.entries.filter fun e => !expiredB cfg st now e⟩)
    ∧ (∀ st t2, st ∈ l →
        getTable (pruneResultState cfg now s l) st = some t2 →
        ∀ e ∈ t2.entries, ∀ ts ttl,
          getField e "timestamp" = some (.vInt ts) →
          getExpiration cfg st = some ttl → now - ttl ≤ ts)
    ∧ (∀ st n, (st, n) ∈ pruneReport cfg now s l → n ≠ 0) := by
  refine ⟨?_, ?_, ?_, ?_⟩
  · rw [prune]
    exact pruneLoop_spec cfg now l s hnames hnd hreg
  · intro st t hst ht
    rw [getTable_pruneResultState ht, if_pos hst]
  · intro st t2 hst ht2 e he ts ttl hts httl
    obtain ⟨t, ht⟩ := hreg st hst
    rw [getTable_pruneResultState ht, if_pos hst] at ht2
    injection ht2 with ht2
    rw [← ht2] at he
    dsimp only at he
    rw [List.mem_filter] at he
    have hkeep := he.2
    rw [expiredB, hts, httl] at hkeep
    dsimp only at hkeep
    have hdf : decide (ts < now - ttl) = false := by
      cases hdec : decide (ts < now - ttl)
      · rfl
      · rw [hdec] at hkeep
        cases hkeep
    have := of_decide_eq_false hdf
    omega
  · exact pruneReport_mem_pos cfg now s l

/-- Fixture for the C3 witness: one store with an expired and a fresh
entry. -/
def c3St : CacheState :=
  ⟨[⟨"indexer/asset", "params",
      [[("params", .vStr "a"), ("timestamp", .vInt 0)],
       [("params", .vStr "b"), ("timestamp", .vInt 5000)]]⟩]⟩

/-- C3 witness: sweeping the fixture at `now = 3000` with TTL 1000 ms
deletes exactly the stale entry and reports one removal. -/
theorem c3_prune_correctness_witness :
    prune exCfg c3St (some ["indexer/asset"]) 3000
      = .ok (pruneResultState exCfg 3000 c3St ["indexer/asset"],
             pruneReport exCfg 3000 c3St ["indexer/asset"])
    ∧ pruneReport exCfg 3000 c3St ["indexer/asset"]
        = [("indexer/asset", 1)]
    ∧ pruneResultState exCfg 3000 c3St ["indexer/asset"]
        = ⟨[⟨"indexer/asset", "params",
            [[("params", .vStr "b"), ("timestamp", .vInt 5000)]]⟩]⟩ := by
  refine ⟨(c3_prune_correctness exCfg c3St 3000 ["indexer/asset"]
    (by decide) (by decide) ?_).1, by decide, by decide⟩
  intro st hst
  rw [List.mem_singleton] at hst
  subst hst
  exact ⟨_, rfl⟩

theorem filter_reverse_comm {α : Type} (p : α → Bool) :
    ∀ l : List α, l.reverse.filter p = (l.filter p).reverse := by
  intro l
  induction l with
  | nil => rfl
  | cons a t ih =>
    rw [List.reverse_cons, List.filter_append, ih]
    by_cases h : p a = true <;> simp [List.filter_cons, h]

theorem orderedInsert_eq_cons_of_forall {α : Type} {r : α → α → Prop}
    [DecidableRel r] (a : α) :
    ∀ (x : List α), (∀ y ∈ x, r a y) → List.orderedInsert r a x = a :: x
  | [], _ => rfl
  | y :: t, h => by
    rw [List.orderedInsert, if_pos (h y (List.mem_cons_self _ _))]

theorem filter_orderedInsert_sorted {α : Type} {r : α → α → Prop}
    [DecidableRel r] [IsTrans α r] (p : α → Bool) (a : α) :
    ∀ {x : List α}, x.Sorted r →
      (List.orderedInsert r a x).filter p
        = if p a then List.orderedInsert r a (x.filter p)
          else x.filter p := by
  intro x
  induction x with
  | nil =>
    intro _
    by_cases h : p a = true <;>
      simp [List.orderedInsert, List.filter_cons, h]
  | cons b t ih =>
    intro hs
    rw [List.orderedInsert]
    by_cases hab : r a b
    · rw [if_pos hab]
      have hall : ∀ y ∈ (b :: t).filter p, r a y := by
        intro y hy
        have hy2 : y ∈ b :: t := List.mem_of_mem_filter hy
        rcases List.mem_cons.mp hy2 with hEq | hmem
        · rw [hEq]
          exact hab
        · exact Trans.trans hab (List.rel_of_sorted_cons hs y hmem)
      by_cases hpa : p a = true
      · rw [if_pos hpa]
        rw [List.filter_cons, if_pos hpa]
        rw [orderedInsert_eq_cons_of_forall a _ hall]
      · rw [if_neg hpa]
        rw [List.filter_cons, if_neg hpa]
    · rw [if_neg hab]
      rw [List.filter_cons]
      rw [ih hs.of_cons]
      rw [List.filter_cons]
      by_cases hpb : p b = true
      · rw [if_pos hpb, if_pos hpb]
        by_cases hpa : p a = true
        · rw [if_pos hpa, if_pos hpa]
          rw [List.orderedInsert, if_neg hab]
        · rw [if_neg hpa, if_neg hpa]
      · rw [if_neg hpb, if_neg hpb]

theorem filter_insertionSort_comm {α : Type} {r : α → α → Prop}
    [DecidableRel r] [IsTotal α r] [IsTrans α r] (p : α → Bool) :
    ∀ l : List α, (List.insertionSort r l).filter p
      = List.insertionSort r (l.filter p) := by
  intro l
  induction l with
  | nil => rfl
  | cons a t ih =>
    rw [List.insertionSort]
    rw [filter_orderedInsert_sorted p a (List.sorted_insertionSort r t)]
    rw [ih]
    rw [List.filter_cons]
    by_cases h : p a = true
    · rw [if_pos h, if_pos h, List.insertionSort]
    · rw [if_neg h, if_neg h]

theorem filter_sortEntries (k : String) (p : CacheEntry → Bool)
    (l : List CacheEntry) :
    (sortEntries k l).filter p = sortEntries k (l.filter p) :=
  filter_insertionSort_comm p l

/-- Modelled from the spec (§4.4, C8): the `find` pipeline in the
order the spec states it — where-equality lookup on the normalized key
object first, then ordering (ascending by default, reversed when
descending is requested), then the caller's filter, then the
expiration filter, then the limit. -/
def findSpecOrder (cfg : CacheConfigs) (s : CacheState) (store : String)
    (q : CacheQuery) (now : Int) (fault : Option JsError) :
    Except JsError (CacheState × FindResult) :=
  match getTable s store with
  | none => .ok (s, .one none)
  | some t =>
    match fault with
    | some e => .error e
    | none =>
      let d1 :=
        match q.whereQ with
        | some w => t.entries.filter (whereMatch (hashObjectProps w))
        | none => t.entries
      let d2 :=
        match q.orderBy with
        | some k => sortEntries k d1
        | none => d1
      let d3 := if isDesc q.order then d2.reverse else d2
      let d4 :=
        match q.filterQ with
        | some p => d3.filter p
        | none => d3
      let d5 :=
        if q.includeExpired then d4
        else d4.filter fun e => !isExpired cfg store e now
      match q.limit with
      | none => .ok (s, .one d5.head?)
      | some n => .ok (s, .many (d5.take n))

/-- C8: `find` is equivalent to the spec-ordered pipeline — where
lookup on the normalized key, then ordering (ascending by default,
reversed when descending), then the caller's filter, then the
expiration filter, then the limit — because the equality filters
commute with the stable sort and with the reversal; and without
`limit` it returns a single optional entry with the state unchanged,
while with `limit: n` it returns a sequence of at most `n` entries. -/
theorem c8_find_clause_order (cfg : CacheConfigs) (s : CacheState)
    (store : String) (q : CacheQuery) (now : Int)
    (fault : Option JsError) :
    find cfg s store q now fault = findSpecOrder cfg s store q now fault
    ∧ (q.limit = none → ∀ r, find cfg s store q now fault = .ok r →
        ∃ o, r = (s, .one o))
    ∧ (∀ n t, getTable s store = some t → q.limit = some n →
        ∀ r, find cfg s store q now fault = .ok r →
        ∃ l2, r = (s, .many l2) ∧ l2.length ≤ n) := by
  refine ⟨?_, ?_, ?_⟩
  · rw [find, findSpecOrder]
    cases hgt : getTable s store with
    | none => rfl
    | some t =>
      cases fault with
      | some e => rfl
      | none =>
        dsimp only
        rcases q with ⟨orderBy, order, whereQ, filterQ, includeExpired,
          limit⟩
        dsimp only
        cases whereQ with
        | none => rfl
        | some w =>
          cases orderBy with
          | none =>
            cases hd : isDesc order <;>
              simp [filter_reverse_comm]
          | some k =>
            cases hd : isDesc order <;>
              simp [filter_reverse_comm, filter_sortEntries]
  · intro hl r h
    rw [find] at h
    cases hgt : getTable s store with
    | none =>
      rw [hgt] at h
      injection h with h2
      exact ⟨none, h2.symm⟩
    | some t =>
      rw [hgt] at h
      cases fault with
      | some e => cases h
      | none =>
        dsimp only at h
        rw [hl] at h
        dsimp only at h
        injection h with h2
        exact ⟨_, h2.symm⟩
  · intro n t hgt hl r h
    rw [find, hgt] at h
    cases fault with
    | some e => cases h
    | none =>
      dsimp only at h
      rw [hl] at h
      dsimp only at h
      injection h with h2
      refine ⟨_, h2.symm, ?_⟩
      exact List.length_take_le _ _

/-- Fixture for the C8 witness: one store with two entries sharing a
key field, stamped at different times. -/
def c8St : CacheState :=
  ⟨[⟨"indexer/asset", "params",
      [[("params", .vStr "a"), ("timestamp", .vInt 1)],
       [("params", .vStr "a"), ("timestamp", .vInt 5)]]⟩]⟩

/-- C8 witness: a descending, ordered, where-constrained, limited
query agrees with the spec-ordered pipeline and returns at most the
limit in descending timestamp order. -/
theorem c8_find_clause_order_witness :
    find exCfg c8St "indexer/asset"
        ⟨some "timestamp", some "desc", some [("params", .vStr "a")],
          none, true, some 5⟩ 0 none
      = findSpecOrder exCfg c8St "indexer/asset"
        ⟨some "timestamp", some "desc", some [("params", .vStr "a")],
          none, true, some 5⟩ 0 none
    ∧ (∃ l2, ((c8St, FindResult.many
          [[("params", .vStr "a"), ("timestamp", .vInt 5)],
           [("params", .vStr "a"), ("timestamp", .vInt 1)]]) :
            CacheState × FindResult)
        = (c8St, .many l2) ∧ l2.length ≤ 5) := by
  refine ⟨(c8_find_clause_order exCfg c8St "indexer/asset"
    ⟨some "timestamp", some "desc", some [("params", .vStr "a")],
      none, true, some 5⟩ 0 none).1, ?_⟩
  exact (c8_find_clause_order exCfg c8St "indexer/asset"
    ⟨some "timestamp", some "desc", some [("params", .vStr "a")],
      none, true, some 5⟩ 0 none).2.2 5 ⟨"indexer/asset", "params",
      [[("params", .vStr "a"), ("timestamp", .vInt 1)],
       [("params", .vStr "a"), ("timestamp", .vInt 5)]]⟩ (by decide) rfl
    _ (by decide)
